import Mathlib

/-!
# String exercises of `go-interview-tasks/strings`: a shallow embedding

Three functions of the package are embedded here:

* `IsValidParentheses` (`strings/parentheses.go`),
* `IsPalindrome` (`strings/palindrome.go`),
* `BackspaceCompare` (`strings/backspace.go`).

## Representation of Go strings

`IsValidParentheses` and `BackspaceCompare` read their arguments with
`for _, item := range s`, which yields the characters (runes) of the text one
after the other.  For these two functions a string is the sequence of its
characters, `List Char`; every value `range` can yield is a Unicode scalar
value, which is what `Char` holds.  `string(runes)` maps distinct sequences of
such characters to distinct strings, so the final `==` of `BackspaceCompare`
is equality of the two rune slices.  A Go string whose bytes are not valid
UTF-8 is not a sequence of characters and has no counterpart in `List Char`.

Where a statement is about every Go string, valid UTF-8 or not, and about `+`
on strings, which joins bytes, the string is given by its bytes:
`decodeRunes` is what `range` yields over them and `BackspaceCompareBytes` is
`BackspaceCompare` on such strings.

`IsPalindrome` indexes the string, `s[left]`, which reads one byte; there a
string is the sequence of its bytes, `List Byte`.  For ASCII text both views
coincide: a character is the byte of its code.
-/

namespace GoInterview

/-! ## `strings/parentheses.go` -/

/-- The `for _, char := range s` loop of `IsValidParentheses` together with the
final `return len(stack) == 0`.  `stack` is the slice of runes, the top of the
stack being its last element; both `return false` statements leave the loop at
once. -/
def validLoop (stack : List Char) : List Char → Bool
  | [] => stack.length == 0
  | char :: rest =>
    if char = '(' ∨ char = '[' ∨ char = '{' then
      validLoop (stack ++ [char]) rest
    else if char = ')' ∨ char = ']' ∨ char = '}' then
      if h : stack.length = 0 then
        false
      else
        let top := stack.get ⟨stack.length - 1, by omega⟩
        if (char == ')' && top != '(') || (char == ']' && top != '[')
            || (char == '}' && top != '{') then
          false
        else
          validLoop (stack.take (stack.length - 1)) rest
    else
      validLoop stack rest

/-- Embedding of `func IsValidParentheses(s string) bool`: the loop started on
the empty stack `[]rune{}`. -/
def IsValidParentheses (s : List Char) : Bool :=
  validLoop [] s

/-- One of the six characters `( ) [ ] { }`. -/
def isBracket (c : Char) : Bool :=
  c == '(' || c == ')' || c == '[' || c == ']' || c == '{' || c == '}'

/-- The well nested strings, as the specification words them: the smallest set
that holds the empty string, is closed under wrapping a member in one of the
three pairs, and is closed under concatenation. -/
inductive WellNested : List Char → Prop
  | empty : WellNested []
  | round (a : List Char) : WellNested a → WellNested ('(' :: a ++ [')'])
  | square (a : List Char) : WellNested a → WellNested ('[' :: a ++ [']'])
  | curly (a : List Char) : WellNested a → WellNested ('{' :: a ++ ['}'])
  | append (a b : List Char) : WellNested a → WellNested b → WellNested (a ++ b)

/-- The opening bracket a closing bracket asks for on top of the stack. -/
def matchingOpen (c : Char) : Char :=
  if c = ')' then '(' else if c = ']' then '[' else '{'

/-- The closing bracket of an opening bracket. -/
def closeOf (c : Char) : Char :=
  if c = '(' then ')' else if c = '[' then ']' else '}'

/-- The stack machine of `validLoop` with the stack held top first and the
early `return false` as `none`: the stack left after reading the text. -/
def runStack : List Char → List Char → Option (List Char)
  | st, [] => some st
  | st, c :: rest =>
    if c = '(' ∨ c = '[' ∨ c = '{' then runStack (c :: st) rest
    else if c = ')' ∨ c = ']' ∨ c = '}' then
      match st with
      | [] => none
      | top :: below => if top = matchingOpen c then runStack below rest else none
    else runStack st rest

/-- The relation `Unwinds st s`: the text `s` closes the open brackets `st`
(innermost first) one after the other, with well nested text in between and
after. -/
def Unwinds : List Char → List Char → Prop
  | [], s => WellNested s
  | o :: st, s => ∃ w r, WellNested w ∧ s = w ++ closeOf o :: r ∧ Unwinds st r

/-- The three kinds of bracket: round, square, curly; `none` for any other
character. -/
def bracketKind (c : Char) : Option (Fin 3) :=
  if c = '(' ∨ c = ')' then some 0
  else if c = '[' ∨ c = ']' then some 1
  else if c = '{' ∨ c = '}' then some 2
  else none

/-- The text with the characters at positions `i` and `i + 1` exchanged (the
text itself when one of the two positions is outside it). -/
def swapAdjacent (s : List Char) (i : Nat) : List Char :=
  match s[i]?, s[i + 1]? with
  | some a, some b => (s.set i b).set (i + 1) a
  | _, _ => s

/-- An opening bracket: one of `( [ {`. -/
def isOpenBracket (c : Char) : Bool :=
  c == '(' || c == '[' || c == '{'

/-- A closing bracket: one of `) ] }`. -/
def isCloseBracket (c : Char) : Bool :=
  c == ')' || c == ']' || c == '}'

/-- The search for the most recently opened unclosed bracket, on a text given
last character first: `pending` counts the closing brackets met so far whose
opening bracket has not been met yet; an opening bracket met with nothing
pending is the answer. -/
def lastUnclosedFrom : Nat → List Char → Option Char
  | _, [] => none
  | pending, c :: before =>
    if isCloseBracket c then lastUnclosedFrom (pending + 1) before
    else if isOpenBracket c then
      match pending with
      | 0 => some c
      | k + 1 => lastUnclosedFrom k before
    else lastUnclosedFrom pending before

/-- The most recently opened bracket of `p` that `p` does not close, if there
is one; brackets are paired by nesting alone, whatever their kinds. -/
def lastUnclosed (p : List Char) : Option Char :=
  lastUnclosedFrom 0 p.reverse

/-! ## `strings/palindrome.go` -/

/-- A byte of a Go string. -/
abbrev Byte := Fin 256

/-- The ways the embedded `IsPalindrome` can fail to return a boolean: Go's
run-time panic on `s[i]` with `i` outside `0 .. len(s)-1`, and the embedding's
own loop budget running out. -/
inductive Fault
  | indexOutOfRange
  | fuelExhausted
  deriving DecidableEq, Repr

deriving instance DecidableEq for Except

/-- Go's `unicode.IsLetter` on the code points up to `unicode.MaxLatin1`
(`0xFF`), the only ones `rune(s[i])` can be: the standard library answers those
from its Latin-1 property table, whose letters are `A-Z`, `a-z`, `ª` (`0xAA`),
`µ` (`0xB5`), `º` (`0xBA`), `À-Ö` (`0xC0-0xD6`), `Ø-ö` (`0xD8-0xF6`) and
`ø-ÿ` (`0xF8-0xFF`).  Code points above `0xFF` are outside this model. -/
def unicodeIsLetter (r : Nat) : Bool :=
  (0x41 ≤ r && r ≤ 0x5A) || (0x61 ≤ r && r ≤ 0x7A) || r == 0xAA || r == 0xB5
    || r == 0xBA || (0xC0 ≤ r && r ≤ 0xD6) || (0xD8 ≤ r && r ≤ 0xF6)
    || (0xF8 ≤ r && r ≤ 0xFF)

/-- Go's `unicode.IsDigit` on the code points up to `0xFF`:
`'0' <= r && r <= '9'`. -/
def unicodeIsDigit (r : Nat) : Bool :=
  0x30 ≤ r && r ≤ 0x39

/-- Go's `unicode.ToLower` on the code points up to `0xFF`: `A-Z`, `À-Ö` and
`Ø-Þ` move up by `0x20`, every other code point is returned unchanged. -/
def unicodeToLower (r : Nat) : Nat :=
  if (0x41 ≤ r ∧ r ≤ 0x5A) ∨ (0xC0 ≤ r ∧ r ≤ 0xD6) ∨ (0xD8 ≤ r ∧ r ≤ 0xDE) then r + 0x20
  else r

/-- Embedding of `func isAlphanumeric(r rune) bool`. -/
def isAlphanumeric (r : Nat) : Bool :=
  unicodeIsLetter r || unicodeIsDigit r

/-- Embedding of `func toLowerRune(r rune) rune`. -/
def toLowerRune (r : Nat) : Nat :=
  unicodeToLower r

/-- The index expression `s[i]` for an `int` index: the byte at `i`, or the
run-time panic when `i` is negative or not below `len(s)`. -/
def byteAt (s : List Byte) (i : Int) : Except Fault Byte :=
  if 0 ≤ i then
    match s[i.toNat]? with
    | some b => .ok b
    | none => .error .indexOutOfRange
  else .error .indexOutOfRange

/-- The loop `for left < right && !isAlphanumeric(rune(s[left])) { left++ }`;
the result is the value of `left` when the loop is left.  Each unit of `fuel`
pays for one evaluation of the loop condition. -/
def skipLeft (s : List Byte) (right : Int) : Nat → Int → Except Fault Int
  | 0, _ => .error .fuelExhausted
  | fuel + 1, left =>
    if left < right then
      match byteAt s left with
      | .error e => .error e
      | .ok b =>
        if !isAlphanumeric b.val then skipLeft s right fuel (left + 1)
        else .ok left
    else .ok left

/-- The loop `for left < right && !isAlphanumeric(rune(s[right])) { right-- }`;
the result is the value of `right` when the loop is left. -/
def skipRight (s : List Byte) (left : Int) : Nat → Int → Except Fault Int
  | 0, _ => .error .fuelExhausted
  | fuel + 1, right =>
    if left < right then
      match byteAt s right with
      | .error e => .error e
      | .ok b =>
        if !isAlphanumeric b.val then skipRight s left fuel (right - 1)
        else .ok right
    else .ok right

/-- The outer loop `for left < right { ... }` of `IsPalindrome` followed by the
final `return true`.  Each unit of `fuel` pays for one evaluation of the outer
loop condition; the two inner loops are given `len(s) + 1` evaluations each. -/
def palindromeLoop (s : List Byte) : Nat → Int → Int → Except Fault Bool
  | 0, _, _ => .error .fuelExhausted
  | fuel + 1, left, right =>
    if left < right then
      match skipLeft s right (s.length + 1) left with
      | .error e => .error e
      | .ok left1 =>
        match skipRight s left1 (s.length + 1) right with
        | .error e => .error e
        | .ok right1 =>
          if left1 ≥ right1 then .ok true
          else
            match byteAt s left1, byteAt s right1 with
            | .ok a, .ok b =>
              if toLowerRune a.val ≠ toLowerRune b.val then .ok false
              else palindromeLoop s fuel (left1 + 1) (right1 - 1)
            | .error e, _ => .error e
            | _, .error e => .error e
    else .ok true

/-- Embedding of `func IsPalindrome(s string) bool`.  `len(s)` counts bytes.
The outer loop is given `len(s) + 1` evaluations of its condition. -/
def IsPalindrome (s : List Byte) : Except Fault Bool :=
  if s.length = 0 then .ok true
  else palindromeLoop s (s.length + 1) 0 ((s.length : Int) - 1)

/-- An ASCII letter or digit: `A-Z`, `a-z`, `0-9`. -/
def asciiAlnum (b : Byte) : Bool :=
  (65 ≤ b.val && b.val ≤ 90) || (97 ≤ b.val && b.val ≤ 122) || (48 ≤ b.val && b.val ≤ 57)

/-- An ASCII upper-case letter is mapped to its lower-case letter, every other
byte is kept. -/
def asciiLower (b : Byte) : Nat :=
  if 65 ≤ b.val ∧ b.val ≤ 90 then b.val + 32 else b.val

/-- The sequence the specification compares with its reverse: `s` without the
characters that are not ASCII letters or digits, upper-case letters lowered. -/
def asciiNormalized (s : List Byte) : List Nat :=
  (s.filter asciiAlnum).map asciiLower

/-- What `IsPalindrome` compares: the bytes that `isAlphanumeric` keeps, each
passed through `toLowerRune`. -/
def byteNormalized (s : List Byte) : List Nat :=
  (s.filter (fun b => isAlphanumeric b.val)).map (fun b => toLowerRune b.val)

/-- The UTF-8 encoding of one character, the bytes a Go string stores for
it. -/
def utf8Encode (c : Char) : List Byte :=
  let n := c.toNat
  if n < 0x80 then [Fin.ofNat n]
  else if n < 0x800 then [Fin.ofNat (0xC0 + n / 0x40), Fin.ofNat (0x80 + n % 0x40)]
  else if n < 0x10000 then
    [Fin.ofNat (0xE0 + n / 0x1000), Fin.ofNat (0x80 + n / 0x40 % 0x40),
      Fin.ofNat (0x80 + n % 0x40)]
  else
    [Fin.ofNat (0xF0 + n / 0x40000), Fin.ofNat (0x80 + n / 0x1000 % 0x40),
      Fin.ofNat (0x80 + n / 0x40 % 0x40), Fin.ofNat (0x80 + n % 0x40)]

/-- The bytes of the Go string that holds the characters `s`. -/
def goBytes (s : List Char) : List Byte :=
  s.flatMap utf8Encode

/-- What an observer of a run of `IsPalindrome` sees: the outer loop condition
`left < right` being evaluated, and a byte `s[index]` being read, each with the
values the two cursors have at that moment. -/
inductive Event
  | loopHead (left right : Int)
  | read (index left right : Int)
  deriving DecidableEq, Repr

/-- The function `skipLeft` together with the events of its run: one `read` of
`s[left]` for each evaluation of `!isAlphanumeric(rune(s[left]))`, which `&&`
reaches only when `left < right`. -/
def skipLeftT (s : List Byte) (right : Int) : Nat → Int → Except Fault Int × List Event
  | 0, _ => (.error .fuelExhausted, [])
  | fuel + 1, left =>
    if left < right then
      match byteAt s left with
      | .error e => (.error e, [.read left left right])
      | .ok b =>
        if !isAlphanumeric b.val then
          ((skipLeftT s right fuel (left + 1)).1,
            .read left left right :: (skipLeftT s right fuel (left + 1)).2)
        else (.ok left, [.read left left right])
    else (.ok left, [])

/-- The function `skipRight` together with the events of its run: one `read` of
`s[right]` for each evaluation of `!isAlphanumeric(rune(s[right]))`. -/
def skipRightT (s : List Byte) (left : Int) : Nat → Int → Except Fault Int × List Event
  | 0, _ => (.error .fuelExhausted, [])
  | fuel + 1, right =>
    if left < right then
      match byteAt s right with
      | .error e => (.error e, [.read right left right])
      | .ok b =>
        if !isAlphanumeric b.val then
          ((skipRightT s left fuel (right - 1)).1,
            .read right left right :: (skipRightT s left fuel (right - 1)).2)
        else (.ok right, [.read right left right])
    else (.ok right, [])

/-- The function `palindromeLoop` together with the events of its run: a
`loopHead` for each evaluation of the outer condition, the reads of the two
inner loops, and the reads of `s[left]` and `s[right]` in the comparison. -/
def palindromeLoopT (s : List Byte) : Nat → Int → Int → Except Fault Bool × List Event
  | 0, _, _ => (.error .fuelExhausted, [])
  | fuel + 1, left, right =>
    if left < right then
      match skipLeftT s right (s.length + 1) left with
      | (.error e, evL) => (.error e, .loopHead left right :: evL)
      | (.ok left1, evL) =>
        match skipRightT s left1 (s.length + 1) right with
        | (.error e, evR) => (.error e, .loopHead left right :: (evL ++ evR))
        | (.ok right1, evR) =>
          if left1 ≥ right1 then (.ok true, .loopHead left right :: (evL ++ evR))
          else
            match byteAt s left1, byteAt s right1 with
            | .ok a, .ok b =>
              if toLowerRune a.val ≠ toLowerRune b.val then
                (.ok false, .loopHead left right ::
                  (evL ++ evR ++ [.read left1 left1 right1, .read right1 left1 right1]))
              else
                ((palindromeLoopT s fuel (left1 + 1) (right1 - 1)).1,
                  .loopHead left right ::
                    (evL ++ evR ++ [.read left1 left1 right1, .read right1 left1 right1] ++
                      (palindromeLoopT s fuel (left1 + 1) (right1 - 1)).2))
            | .error e, _ =>
              (.error e, .loopHead left right :: (evL ++ evR ++ [.read left1 left1 right1]))
            | _, .error e =>
              (.error e, .loopHead left right ::
                (evL ++ evR ++ [.read left1 left1 right1, .read right1 left1 right1]))
    else (.ok true, [.loopHead left right])

/-- The function `IsPalindrome` together with the events of its run; on the
empty string it returns before anything is read. -/
def IsPalindromeT (s : List Byte) : Except Fault Bool × List Event :=
  if s.length = 0 then (.ok true, [])
  else palindromeLoopT s (s.length + 1) 0 ((s.length : Int) - 1)

/-- The values of `right - left` at the successive evaluations of the outer
loop condition. -/
def loopMeasures (events : List Event) : List Int :=
  events.filterMap (fun e =>
    match e with
    | .loopHead left right => some (right - left)
    | .read _ _ _ => none)

/-! ## `strings/backspace.go` -/

/-- The body of either `for _, item := range ...` loop of `BackspaceCompare`:
the new value of the rune slice after reading `item`. -/
def backspaceStep (runes : List Char) (item : Char) : List Char :=
  if item = '#' then
    if runes.length > 0 then runes.take (runes.length - 1) else runes
  else runes ++ [item]

/-- Either loop of `BackspaceCompare` run to its end, from the empty slice
`make([]rune, 0, len(s))`. -/
def backspaceRunes (s : List Char) : List Char :=
  s.foldl backspaceStep []

/-- Embedding of `func BackspaceCompare(s string, t string) bool`. -/
def BackspaceCompare (s t : List Char) : Bool :=
  decide (backspaceRunes s = backspaceRunes t)

/-- The specification's `typed`, read on the text with its last character
first: `typed("") = ""`, `typed(w + "#")` is `typed(w)` without its last
character (and `""` when `typed(w)` is empty), `typed(w + c)` is
`typed(w) + c` for every other character. -/
def typedRev : List Char → List Char
  | [] => []
  | c :: w => if c = '#' then (typedRev w).dropLast else typedRev w ++ [c]

/-- The text an initially empty editor holds after the characters of `s` are
typed in order. -/
def typed (s : List Char) : List Char :=
  typedRev s.reverse

/-- Go's `RuneError`, `U+FFFD`, the rune `range` yields for a byte that does
not begin a valid UTF-8 sequence. -/
def runeError : Char := Char.ofNat 0xFFFD

/-- A UTF-8 continuation byte: `0x80 .. 0xBF`. -/
def isContinuation (b : Byte) : Bool :=
  0x80 ≤ b.val && b.val ≤ 0xBF

/-- One step of `for _, item := range s` on the bytes `b0 :: rest` still to be
read: the rune yielded and the number of bytes it takes.  A byte below `0x80`
is its own rune.  A lead byte `0xC0 .. 0xDF`, `0xE0 .. 0xEF` or `0xF0 .. 0xF7`
followed by one, two or three continuation bytes yields the code point their
payload bits spell, unless that code point has a shorter encoding, is a
surrogate or lies above `U+10FFFF`.  In every other case the rune is
`RuneError` and a single byte is taken. -/
def decodeRune (b0 : Byte) (rest : List Byte) : Char × Nat :=
  if b0.val < 0x80 then (Char.ofNat b0.val, 1)
  else if 0xC0 ≤ b0.val ∧ b0.val < 0xE0 then
    match rest with
    | b1 :: _ =>
      if isContinuation b1 then
        if 0x7F < b0.val % 0x20 * 0x40 + b1.val % 0x40 then
          (Char.ofNat (b0.val % 0x20 * 0x40 + b1.val % 0x40), 2)
        else (runeError, 1)
      else (runeError, 1)
    | [] => (runeError, 1)
  else if 0xE0 ≤ b0.val ∧ b0.val < 0xF0 then
    match rest with
    | b1 :: b2 :: _ =>
      if isContinuation b1 && isContinuation b2 then
        if 0x7FF < b0.val % 0x10 * 0x1000 + b1.val % 0x40 * 0x40 + b2.val % 0x40 ∧
            ¬ (0xD800 ≤ b0.val % 0x10 * 0x1000 + b1.val % 0x40 * 0x40 + b2.val % 0x40 ∧
              b0.val % 0x10 * 0x1000 + b1.val % 0x40 * 0x40 + b2.val % 0x40 ≤ 0xDFFF) then
          (Char.ofNat (b0.val % 0x10 * 0x1000 + b1.val % 0x40 * 0x40 + b2.val % 0x40), 3)
        else (runeError, 1)
      else (runeError, 1)
    | _ => (runeError, 1)
  else if 0xF0 ≤ b0.val ∧ b0.val < 0xF8 then
    match rest with
    | b1 :: b2 :: b3 :: _ =>
      if isContinuation b1 && isContinuation b2 && isContinuation b3 then
        if 0xFFFF < b0.val % 0x8 * 0x40000 + b1.val % 0x40 * 0x1000 + b2.val % 0x40 * 0x40
              + b3.val % 0x40 ∧
            b0.val % 0x8 * 0x40000 + b1.val % 0x40 * 0x1000 + b2.val % 0x40 * 0x40
              + b3.val % 0x40 ≤ 0x10FFFF then
          (Char.ofNat (b0.val % 0x8 * 0x40000 + b1.val % 0x40 * 0x1000 + b2.val % 0x40 * 0x40
            + b3.val % 0x40), 4)
        else (runeError, 1)
      else (runeError, 1)
    | _ => (runeError, 1)
  else (runeError, 1)

/-- The runes `range` yields over the bytes of a string; `skip` is the number
of bytes still to pass over because they belong to the rune yielded last. -/
def decodeRunesFrom : Nat → List Byte → List Char
  | _, [] => []
  | skip + 1, _ :: rest => decodeRunesFrom skip rest
  | 0, b0 :: rest => (decodeRune b0 rest).1 :: decodeRunesFrom ((decodeRune b0 rest).2 - 1) rest

/-- The runes `for _, item := range s` yields over a Go string, given by its
bytes, valid UTF-8 or not. -/
def decodeRunes (s : List Byte) : List Char :=
  decodeRunesFrom 0 s

/-- Embedding of `func BackspaceCompare(s string, t string) bool` on Go strings
given by their bytes: each loop runs over the runes `range` yields,
`string(runes)` encodes the runes left as UTF-8, and `==` compares the bytes.
Go's `+` on strings is `++` on these byte sequences. -/
def BackspaceCompareBytes (s t : List Byte) : Bool :=
  decide (goBytes (backspaceRunes (decodeRunes s)) = goBytes (backspaceRunes (decodeRunes t)))

/-! ## `IsValidParentheses`: the stack machine -/

theorem validLoop_eq_runStack (s : List Char) :
    ∀ stack, validLoop stack s = decide (runStack stack.reverse s = some []) := by
  induction s with
  | nil =>
    intro stack
    cases stack <;> simp [validLoop, runStack]
  | cons c rest ih =>
    intro stack
    unfold validLoop runStack
    by_cases ho : c = '(' ∨ c = '[' ∨ c = '{'
    · rw [if_pos ho, if_pos ho, ih]
      simp
    · rw [if_neg ho, if_neg ho]
      by_cases hc : c = ')' ∨ c = ']' ∨ c = '}'
      · rw [if_pos hc, if_pos hc]
        rcases List.eq_nil_or_concat stack with rfl | ⟨init, top, hst⟩
        · simp
        · rw [List.concat_eq_append] at hst
          subst hst
          have hlen : (init ++ [top]).length ≠ 0 := by simp
          rw [dif_neg hlen]
          simp only [List.reverse_append, List.reverse_cons, List.reverse_nil, List.nil_append,
            List.singleton_append]
          have htop : (init ++ [top]).get ⟨(init ++ [top]).length - 1, by simp⟩ = top := by
            simp
          have htake : (init ++ [top]).take ((init ++ [top]).length - 1) = init := by
            simp
          simp only [htop, htake, ih]
          rcases hc with rfl | rfl | rfl <;> simp [matchingOpen]
      · rw [if_neg hc, if_neg hc, ih]

theorem isValid_iff_runStack (s : List Char) :
    IsValidParentheses s = true ↔ runStack [] s = some [] := by
  simp [IsValidParentheses, validLoop_eq_runStack]

theorem runStack_append (a b : List Char) :
    ∀ st, runStack st (a ++ b) = (runStack st a).bind (fun st1 => runStack st1 b) := by
  induction a with
  | nil => intro st; simp [runStack]
  | cons c rest ih =>
    intro st
    simp only [List.cons_append, runStack]
    split_ifs
    · exact ih _
    · cases st with
      | nil => simp
      | cons top below =>
        simp only
        split_ifs
        · exact ih _
        · simp
    · exact ih _

theorem runStack_wellNested {w : List Char} (hw : WellNested w) :
    ∀ st, runStack st w = some st := by
  induction hw with
  | empty => intro st; simp [runStack]
  | round a _ ih =>
    intro st
    have h := runStack_append a [')'] ('(' :: st)
    simp [runStack, h, ih, matchingOpen]
  | square a _ ih =>
    intro st
    have h := runStack_append a [']'] ('[' :: st)
    simp [runStack, h, ih, matchingOpen]
  | curly a _ ih =>
    intro st
    have h := runStack_append a ['}'] ('{' :: st)
    simp [runStack, h, ih, matchingOpen]
  | append a b _ _ iha ihb =>
    intro st
    simp [runStack_append, iha, ihb]

theorem unwinds_prepend {v : List Char} (hv : WellNested v) :
    ∀ st r, Unwinds st r → Unwinds st (v ++ r) := by
  intro st r h
  cases st with
  | nil => exact WellNested.append v r hv h
  | cons o st =>
    obtain ⟨w, r1, hw, hr, hu⟩ := h
    exact ⟨v ++ w, r1, WellNested.append v w hv hw, by simp [hr], hu⟩

theorem wellNested_wrap (c : Char) (hc : c = '(' ∨ c = '[' ∨ c = '{') {w : List Char}
    (hw : WellNested w) : WellNested (c :: w ++ [closeOf c]) := by
  rcases hc with rfl | rfl | rfl
  · exact WellNested.round w hw
  · exact WellNested.square w hw
  · exact WellNested.curly w hw

theorem closeOf_matchingOpen (c : Char) (hc : c = ')' ∨ c = ']' ∨ c = '}') :
    closeOf (matchingOpen c) = c := by
  rcases hc with rfl | rfl | rfl <;> decide

theorem unwinds_of_runStack (s : List Char) (hs : ∀ c ∈ s, isBracket c = true) :
    ∀ st, runStack st s = some [] → Unwinds st s := by
  induction s with
  | nil =>
    intro st h
    simp only [runStack, Option.some.injEq] at h
    subst h
    exact WellNested.empty
  | cons c rest ih =>
    intro st h
    have hrest : ∀ d ∈ rest, isBracket d = true := fun d hd => hs d (List.mem_cons_of_mem _ hd)
    have hc : isBracket c = true := hs c (List.mem_cons_self _ _)
    simp only [runStack] at h
    by_cases ho : c = '(' ∨ c = '[' ∨ c = '{'
    · rw [if_pos ho] at h
      obtain ⟨w, r, hw, hr, hu⟩ := ih hrest _ h
      have hwrap := wellNested_wrap c ho hw
      have := unwinds_prepend hwrap st r hu
      rw [hr]
      simpa using this
    · rw [if_neg ho] at h
      by_cases hcl : c = ')' ∨ c = ']' ∨ c = '}'
      · rw [if_pos hcl] at h
        cases st with
        | nil => simp at h
        | cons top below =>
          simp only at h
          by_cases ht : top = matchingOpen c
          · rw [if_pos ht] at h
            refine ⟨[], rest, WellNested.empty, ?_, ih hrest _ h⟩
            rw [ht, closeOf_matchingOpen c hcl]
            rfl
          · rw [if_neg ht] at h
            simp at h
      · exfalso
        simp only [isBracket, Bool.or_eq_true, beq_iff_eq] at hc
        tauto

/-- Two stacks from which the same text runs down to the empty stack are the
same stack. -/
theorem runStack_start_unique (l : List Char) :
    ∀ st st1, runStack st l = some [] → runStack st1 l = some [] → st = st1 := by
  induction l with
  | nil =>
    intro st st1 h h1
    simp only [runStack, Option.some.injEq] at h h1
    rw [h, h1]
  | cons c rest ih =>
    intro st st1 h h1
    simp only [runStack] at h h1
    by_cases ho : c = '(' ∨ c = '[' ∨ c = '{'
    · rw [if_pos ho] at h h1
      have := ih _ _ h h1
      simpa using this
    · rw [if_neg ho] at h h1
      by_cases hcl : c = ')' ∨ c = ']' ∨ c = '}'
      · rw [if_pos hcl] at h h1
        cases st with
        | nil => simp at h
        | cons top below =>
          cases st1 with
          | nil => simp at h1
          | cons top1 below1 =>
            simp only at h h1
            by_cases ht : top = matchingOpen c
            · by_cases ht1 : top1 = matchingOpen c
              · rw [if_pos ht] at h
                rw [if_pos ht1] at h1
                rw [ih _ _ h h1, ht, ht1]
              · rw [if_neg ht1] at h1
                simp at h1
            · rw [if_neg ht] at h
              simp at h
      · rw [if_neg hcl] at h h1
        exact ih _ _ h h1

theorem runStack_cons (c : Char) (l st : List Char) :
    runStack st (c :: l) = (runStack st [c]).bind (fun st1 => runStack st1 l) :=
  runStack_append [c] l st

/-- What reading one bracket does to the stack: an opening bracket is pushed, a
closing bracket pops the opening bracket it matches. -/
theorem runStack_single {c : Char} (hc : isBracket c = true) {st st2 : List Char}
    (h : runStack st [c] = some st2) :
    ((c = '(' ∨ c = '[' ∨ c = '{') ∧ st2 = c :: st) ∨
      ((c = ')' ∨ c = ']' ∨ c = '}') ∧ st = matchingOpen c :: st2) := by
  simp only [runStack] at h
  by_cases ho : c = '(' ∨ c = '[' ∨ c = '{'
  · rw [if_pos ho] at h
    left
    exact ⟨ho, by simpa using h.symm⟩
  · rw [if_neg ho] at h
    have hcl : c = ')' ∨ c = ']' ∨ c = '}' := by
      simp only [isBracket, Bool.or_eq_true, beq_iff_eq] at hc
      tauto
    rw [if_pos hcl] at h
    right
    cases st with
    | nil => simp at h
    | cons top below =>
      simp only at h
      by_cases ht : top = matchingOpen c
      · rw [if_pos ht] at h
        simp only [Option.some.injEq] at h
        exact ⟨hcl, by rw [ht, h]⟩
      · rw [if_neg ht] at h
        simp at h

theorem matchingOpen_inj {c d : Char} (hc : c = ')' ∨ c = ']' ∨ c = '}')
    (hd : d = ')' ∨ d = ']' ∨ d = '}') (h : matchingOpen c = matchingOpen d) : c = d := by
  rcases hc with rfl | rfl | rfl <;> rcases hd with rfl | rfl | rfl <;>
    first | rfl | (exfalso; revert h; decide)

theorem bracketKind_matchingOpen {c : Char} (hc : c = ')' ∨ c = ']' ∨ c = '}') :
    bracketKind (matchingOpen c) = bracketKind c := by
  rcases hc with rfl | rfl | rfl <;> decide

/-- A valid text cut at any point: the part before the cut runs from the empty
stack to some stack, from which the part after the cut runs back to empty. -/
theorem runStack_split {l1 l2 : List Char} (h : runStack [] (l1 ++ l2) = some []) :
    ∃ st, runStack [] l1 = some st ∧ runStack st l2 = some [] := by
  rw [runStack_append] at h
  cases hr : runStack [] l1 with
  | none => simp [hr] at h
  | some st => exact ⟨st, rfl, by simpa [hr] using h⟩

theorem runStack_cons_split {c : Char} {l st : List Char}
    (h : runStack st (c :: l) = some []) :
    ∃ st1, runStack st [c] = some st1 ∧ runStack st1 l = some [] := by
  rw [runStack_cons] at h
  cases hr : runStack st [c] with
  | none => simp [hr] at h
  | some st1 => exact ⟨st1, rfl, by simpa [hr] using h⟩

theorem list_split_at {α : Type} (s : List α) (i : Nat) (c : α) (h : s[i]? = some c) :
    s = s.take i ++ c :: s.drop (i + 1) ∧ (s.take i).length = i := by
  obtain ⟨hi, hc⟩ := List.getElem?_eq_some_iff.mp h
  refine ⟨?_, by simp; omega⟩
  rw [← hc, List.getElem_cons_drop, List.take_append_drop]

theorem mem_of_getElem?_some {α : Type} {s : List α} {i : Nat} {c : α}
    (h : s[i]? = some c) : c ∈ s := by
  obtain ⟨hi, hc⟩ := List.getElem?_eq_some_iff.mp h
  rw [← hc]
  exact List.getElem_mem hi

theorem open_close_absurd {c : Char} (ho : c = '(' ∨ c = '[' ∨ c = '{')
    (hc : c = ')' ∨ c = ']' ∨ c = '}') : False := by
  rcases ho with rfl | rfl | rfl <;> rcases hc with h | h | h <;>
    exact absurd h (by decide)

theorem swapAdjacent_append (l1 : List Char) (a b : Char) (l2 : List Char) :
    swapAdjacent (l1 ++ a :: b :: l2) l1.length = l1 ++ b :: a :: l2 := by
  induction l1 with
  | nil => simp [swapAdjacent]
  | cons x l1 ih =>
    simp only [swapAdjacent, List.cons_append, List.length_cons, List.getElem?_cons_succ,
      List.set_cons_succ] at ih ⊢
    have h1 : (l1 ++ a :: b :: l2)[l1.length]? = some a := by
      rw [List.getElem?_append_right (Nat.le_refl _)]
      simp
    have h2 : (l1 ++ a :: b :: l2)[l1.length + 1]? = some b := by
      rw [List.getElem?_append_right (by omega)]
      simp
    simp only [h1, h2] at ih ⊢
    rw [ih]

/-! ## `IsValidParentheses`: the claims -/

/-- C1: on a string made only of the six bracket characters (the empty string
included), `IsValidParentheses` returns true exactly when the string is well
nested: a member of the smallest set holding the empty string and closed under
wrapping in `()`, `[]`, `{}` and under concatenation. -/
theorem isValidParentheses_iff_wellNested (s : List Char)
    (hs : ∀ c ∈ s, isBracket c = true) :
    IsValidParentheses s = true ↔ WellNested s := by
  rw [isValid_iff_runStack]
  constructor
  · intro h
    exact unwinds_of_runStack s hs [] h
  · intro h
    exact runStack_wellNested h []

theorem isValidParentheses_iff_wellNested_witness :
    (∀ c ∈ ['(', '[', ']', ')', '{', '}'], isBracket c = true) ∧
      (IsValidParentheses ['(', '[', ']', ')', '{', '}'] = true ↔
        WellNested ['(', '[', ']', ')', '{', '}']) :=
  ⟨by decide, isValidParentheses_iff_wellNested _ (by decide)⟩

/-- C6: in a string of brackets that `IsValidParentheses` accepts, replacing the
character at any position by any of the five other bracket characters gives a
string that `IsValidParentheses` rejects. -/
theorem isValidParentheses_replace_false (s : List Char)
    (hs : ∀ c ∈ s, isBracket c = true) (hv : IsValidParentheses s = true)
    (i : Nat) (c : Char) (hi : s[i]? = some c)
    (d : Char) (hd : isBracket d = true) (hne : d ≠ c) :
    IsValidParentheses (s.set i d) = false := by
  obtain ⟨hsplit, hlen⟩ := list_split_at s i c hi
  have hilt : i < s.length := (List.getElem?_eq_some_iff.mp hi).1
  have hc : isBracket c = true := hs c (mem_of_getElem?_some hi)
  rw [isValid_iff_runStack, hsplit] at hv
  obtain ⟨st, h1, h2⟩ := runStack_split hv
  obtain ⟨u, hcu, hu⟩ := runStack_cons_split h2
  by_contra hcon
  rw [Bool.not_eq_false, isValid_iff_runStack, List.set_eq_take_append_cons_drop,
    if_pos hilt] at hcon
  obtain ⟨st1, h3, h4⟩ := runStack_split hcon
  rw [h1, Option.some.injEq] at h3
  subst h3
  obtain ⟨v, hdv, hv2⟩ := runStack_cons_split h4
  have huv : u = v := runStack_start_unique _ u v hu hv2
  subst huv
  rcases runStack_single hc hcu with ⟨_, e1⟩ | ⟨hcc, e1⟩ <;>
    rcases runStack_single hd hdv with ⟨_, e2⟩ | ⟨hdc, e2⟩
  · rw [e1] at e2
    simp only [List.cons.injEq, and_true] at e2
    exact hne e2.symm
  · have l1 := congrArg List.length e1
    have l2 := congrArg List.length e2
    simp only [List.length_cons] at l1 l2
    omega
  · have l1 := congrArg List.length e1
    have l2 := congrArg List.length e2
    simp only [List.length_cons] at l1 l2
    omega
  · rw [e1] at e2
    simp only [List.cons.injEq, and_true] at e2
    exact hne (matchingOpen_inj hcc hdc e2).symm

theorem isValidParentheses_replace_false_witness :
    (∀ c ∈ ['(', '[', ']', ')'], isBracket c = true) ∧
      IsValidParentheses ['(', '[', ']', ')'] = true ∧
      ['(', '[', ']', ')'][2]? = some ']' ∧ isBracket '[' = true ∧ '[' ≠ ']' ∧
      IsValidParentheses (['(', '[', ']', ')'].set 2 '[') = false :=
  ⟨by decide, by decide, by decide, by decide, by decide,
    isValidParentheses_replace_false _ (by decide) (by decide) 2 ']' (by decide) '['
      (by decide) (by decide)⟩

/-- C7: in a non-empty string of brackets that `IsValidParentheses` accepts,
deleting the single character at any position gives a string that
`IsValidParentheses` rejects. -/
theorem isValidParentheses_delete_false (s : List Char)
    (hs : ∀ c ∈ s, isBracket c = true) (hv : IsValidParentheses s = true)
    (i : Nat) (hi : i < s.length) :
    IsValidParentheses (s.eraseIdx i) = false := by
  have hget : s[i]? = some s[i] := List.getElem?_eq_getElem hi
  obtain ⟨hsplit, hlen⟩ := list_split_at s i s[i] hget
  have hc : isBracket s[i] = true := hs _ (List.getElem_mem hi)
  rw [isValid_iff_runStack] at hv
  rw [hsplit] at hv
  obtain ⟨st, h1, h2⟩ := runStack_split hv
  obtain ⟨u, hcu, hu⟩ := runStack_cons_split h2
  by_contra hcon
  rw [Bool.not_eq_false, isValid_iff_runStack, List.eraseIdx_eq_take_drop_succ] at hcon
  obtain ⟨st1, h3, h4⟩ := runStack_split hcon
  rw [h1, Option.some.injEq] at h3
  subst h3
  have huv : u = st := runStack_start_unique _ u st hu h4
  subst huv
  rcases runStack_single hc hcu with ⟨_, e1⟩ | ⟨_, e1⟩
  · have l1 := congrArg List.length e1
    simp only [List.length_cons] at l1
    omega
  · have l1 := congrArg List.length e1
    simp only [List.length_cons] at l1
    omega

theorem isValidParentheses_delete_false_witness :
    (∀ c ∈ ['(', '[', ']', ')'], isBracket c = true) ∧
      IsValidParentheses ['(', '[', ']', ')'] = true ∧ 3 < ['(', '[', ']', ')'].length ∧
      IsValidParentheses (['(', '[', ']', ')'].eraseIdx 3) = false :=
  ⟨by decide, by decide, by decide,
    isValidParentheses_delete_false _ (by decide) (by decide) 3 (by decide)⟩

/-- C8, as stated, fails: `"()()"` is accepted, its characters at positions 1
and 2 are `)` and `(`, two different characters, and exchanging them gives
`"(())"`, which is accepted as well. -/
theorem isValidParentheses_swap_counterexample :
    (∀ c ∈ ['(', ')', '(', ')'], isBracket c = true) ∧
      IsValidParentheses ['(', ')', '(', ')'] = true ∧
      ['(', ')', '(', ')'][1]? = some ')' ∧ ['(', ')', '(', ')'][2]? = some '(' ∧
      ')' ≠ '(' ∧
      swapAdjacent ['(', ')', '(', ')'] 1 = ['(', '(', ')', ')'] ∧
      IsValidParentheses (swapAdjacent ['(', ')', '(', ')'] 1) = true := by
  decide

/-- C8, amended: in a string of brackets that `IsValidParentheses` accepts,
exchanging two adjacent characters of different bracket kinds (round, square,
curly) gives a string that `IsValidParentheses` rejects. -/
theorem isValidParentheses_swap_kinds_false (s : List Char)
    (hs : ∀ c ∈ s, isBracket c = true) (hv : IsValidParentheses s = true)
    (i : Nat) (a b : Char) (ha : s[i]? = some a) (hb : s[i + 1]? = some b)
    (hk : bracketKind a ≠ bracketKind b) :
    IsValidParentheses (swapAdjacent s i) = false := by
  obtain ⟨hsplit, hlen⟩ := list_split_at s i a ha
  obtain ⟨hib, hbe⟩ := List.getElem?_eq_some_iff.mp hb
  have hdrop : s.drop (i + 1) = b :: s.drop (i + 2) := by
    rw [← hbe]
    exact List.drop_eq_getElem_cons hib
  rw [hdrop] at hsplit
  have hsa : isBracket a = true := hs a (mem_of_getElem?_some ha)
  have hsb : isBracket b = true := hs b (mem_of_getElem?_some hb)
  have hswap : swapAdjacent s i = s.take i ++ b :: a :: s.drop (i + 2) := by
    have := swapAdjacent_append (s.take i) a b (s.drop (i + 2))
    rw [hlen, ← hsplit] at this
    exact this
  rw [isValid_iff_runStack, hsplit] at hv
  obtain ⟨st, h1, h2⟩ := runStack_split hv
  obtain ⟨u, hau, hu⟩ := runStack_cons_split h2
  obtain ⟨w, hbw, hw⟩ := runStack_cons_split hu
  by_contra hcon
  rw [Bool.not_eq_false, isValid_iff_runStack, hswap] at hcon
  obtain ⟨st1, h3, h4⟩ := runStack_split hcon
  rw [h1, Option.some.injEq] at h3
  subst h3
  obtain ⟨v, hbv, hv2⟩ := runStack_cons_split h4
  obtain ⟨x, hax, hx⟩ := runStack_cons_split hv2
  have hwx : w = x := runStack_start_unique _ w x hw hx
  subst hwx
  rcases runStack_single hsa hau with ⟨hao, e1⟩ | ⟨hac, e1⟩
  · rcases runStack_single hsb hbw with ⟨hbo, e2⟩ | ⟨hbc, e2⟩
    · rcases runStack_single hsb hbv with ⟨_, e3⟩ | ⟨hbc, _⟩
      · rcases runStack_single hsa hax with ⟨_, e4⟩ | ⟨hac, _⟩
        · rw [e2, e1, e3] at e4
          simp only [List.cons.injEq, and_true] at e4
          exact hk (by rw [e4.1])
        · exact open_close_absurd hao hac
      · exact open_close_absurd hbo hbc
    · rw [e1] at e2
      simp only [List.cons.injEq] at e2
      exact hk (by rw [e2.1, bracketKind_matchingOpen hbc])
  · rcases runStack_single hsb hbw with ⟨hbo, e2⟩ | ⟨hbc, e2⟩
    · rcases runStack_single hsb hbv with ⟨_, e3⟩ | ⟨hbc, _⟩
      · rcases runStack_single hsa hax with ⟨hao, _⟩ | ⟨_, e4⟩
        · exact open_close_absurd hao hac
        · rw [e3] at e4
          simp only [List.cons.injEq] at e4
          exact hk (by rw [e4.1, bracketKind_matchingOpen hac])
      · exact open_close_absurd hbo hbc
    · rcases runStack_single hsb hbv with ⟨hbo, _⟩ | ⟨_, e3⟩
      · exact open_close_absurd hbo hbc
      · rcases runStack_single hsa hax with ⟨hao, _⟩ | ⟨_, e4⟩
        · exact open_close_absurd hao hac
        · rw [e2] at e1
          rw [e4] at e3
          rw [e1] at e3
          simp only [List.cons.injEq, and_true] at e3
          exact hk (by rw [matchingOpen_inj hac hbc e3.1])

theorem isValidParentheses_swap_kinds_false_witness :
    (∀ c ∈ ['(', '[', ']', ')'], isBracket c = true) ∧
      IsValidParentheses ['(', '[', ']', ')'] = true ∧
      ['(', '[', ']', ')'][0]? = some '(' ∧ ['(', '[', ']', ')'][0 + 1]? = some '[' ∧
      bracketKind '(' ≠ bracketKind '[' ∧
      IsValidParentheses (swapAdjacent ['(', '[', ']', ')'] 0) = false :=
  ⟨by decide, by decide, by decide, by decide, by decide,
    isValidParentheses_swap_kinds_false _ (by decide) (by decide) 0 '(' '[' (by decide)
      (by decide) (by decide)⟩

/-! ## `IsPalindrome`: the two cursors -/

theorem byteAt_natCast (s : List Byte) (l : Nat) (b : Byte) (h : s[l]? = some b) :
    byteAt s (l : Int) = .ok b := by
  simp [byteAt, h]

theorem byteNormalized_append (a b : List Byte) :
    byteNormalized (a ++ b) = byteNormalized a ++ byteNormalized b := by
  simp [byteNormalized]

theorem byteNormalized_cons_skip (x : Byte) (a : List Byte)
    (hx : isAlphanumeric x.val = false) : byteNormalized (x :: a) = byteNormalized a := by
  simp [byteNormalized, hx]

theorem byteNormalized_cons_keep (x : Byte) (a : List Byte)
    (hx : isAlphanumeric x.val = true) :
    byteNormalized (x :: a) = toLowerRune x.val :: byteNormalized a := by
  simp [byteNormalized, hx]

theorem take_succ_drop {α : Type} (s : List α) (l k : Nat) (x : α) (h : s[l]? = some x) :
    (s.drop l).take (k + 1) = x :: (s.drop (l + 1)).take k := by
  obtain ⟨hl, hx⟩ := List.getElem?_eq_some_iff.mp h
  rw [List.drop_eq_getElem_cons hl, List.take_succ_cons, hx]

/-- The left cursor: started on a segment of `n ≥ 1` bytes beginning at `l`, the
loop returns, stops `k < n` bytes further, has passed only bytes that are not
alphanumeric, and stands on an alphanumeric byte unless it met the right
cursor. -/
theorem skipLeft_spec (s : List Byte) :
    ∀ (n fuel l : Nat) (left right : Int), left = l → right = (l : Int) + n - 1 →
      1 ≤ n → l + n ≤ s.length → n ≤ fuel →
      ∃ k, k < n ∧ skipLeft s right fuel left = .ok ((l : Int) + k) ∧
        byteNormalized ((s.drop l).take k) = [] ∧
        (k + 1 < n → ∃ b, s[l + k]? = some b ∧ isAlphanumeric b.val = true) := by
  intro n
  induction n with
  | zero => intro fuel l left right _ _ h1; omega
  | succ m ih =>
    intro fuel l left right hl hr h1 hlen hfuel
    cases fuel with
    | zero => omega
    | succ f =>
      simp only [skipLeft]
      by_cases hlt : left < right
      · rw [if_pos hlt]
        have hlt2 : l < s.length := by omega
        have hb : byteAt s left = .ok s[l] := by
          rw [hl]
          exact byteAt_natCast s l _ (List.getElem?_eq_getElem hlt2)
        rw [hb]
        simp only
        by_cases ha : isAlphanumeric (s[l]).val = true
        · refine ⟨0, by omega, ?_, ?_, ?_⟩
          · simp [ha, hl]
          · simp [byteNormalized]
          · intro _
            exact ⟨s[l], by simp [List.getElem?_eq_getElem hlt2], ha⟩
        · have ha2 : isAlphanumeric (s[l]).val = false := by simpa using ha
          simp only [ha2, Bool.not_false, if_true]
          obtain ⟨k, hk, hrun, hnorm, hstop⟩ :=
            ih f (l + 1) (left + 1) right (by omega) (by omega) (by omega) (by omega)
              (by omega)
          refine ⟨k + 1, by omega, ?_, ?_, ?_⟩
          · rw [hrun]
            congr 1
            push_cast
            ring
          · rw [take_succ_drop s l k _ (List.getElem?_eq_getElem hlt2),
              byteNormalized_cons_skip _ _ ha2]
            exact hnorm
          · intro hk2
            obtain ⟨b, hb1, hb2⟩ := hstop (by omega)
            refine ⟨b, ?_, hb2⟩
            rw [← hb1]
            congr 1
            omega
      · rw [if_neg hlt]
        refine ⟨0, by omega, ?_, ?_, ?_⟩
        · simp [hl]
        · simp [byteNormalized]
        · intro h
          omega

theorem take_succ_drop_snoc {α : Type} (s : List α) (a k : Nat) (x : α)
    (h : s[a + k]? = some x) :
    (s.drop a).take (k + 1) = (s.drop a).take k ++ [x] := by
  rw [List.take_succ, List.getElem?_drop, h]
  rfl

/-- The right cursor: started on a segment of `n ≥ 1` bytes beginning at `l`,
the loop returns, stops `k < n` bytes before the end of the segment, has passed
only bytes that are not alphanumeric, and stands on an alphanumeric byte unless
it met the left cursor. -/
theorem skipRight_spec (s : List Byte) :
    ∀ (n fuel l : Nat) (left right : Int), left = l → right = (l : Int) + n - 1 →
      1 ≤ n → l + n ≤ s.length → n ≤ fuel →
      ∃ k, k < n ∧ skipRight s left fuel right = .ok ((l : Int) + n - 1 - k) ∧
        byteNormalized ((s.drop (l + n - k)).take k) = [] ∧
        (k + 1 < n → ∃ b, s[l + n - 1 - k]? = some b ∧ isAlphanumeric b.val = true) := by
  intro n
  induction n with
  | zero => intro fuel l left right _ _ h1; omega
  | succ m ih =>
    intro fuel l left right hl hr h1 hlen hfuel
    cases fuel with
    | zero => omega
    | succ f =>
      simp only [skipRight]
      by_cases hlt : left < right
      · rw [if_pos hlt]
        have hlt2 : l + m < s.length := by omega
        have hb : byteAt s right = .ok s[l + m] := by
          have : right = ((l + m : Nat) : Int) := by omega
          rw [this]
          exact byteAt_natCast s (l + m) _ (List.getElem?_eq_getElem hlt2)
        rw [hb]
        simp only
        by_cases ha : isAlphanumeric (s[l + m]).val = true
        · refine ⟨0, by omega, ?_, ?_, ?_⟩
          · simp only [ha, Bool.not_true, Bool.false_eq_true, if_false]
            congr 1
            omega
          · simp [byteNormalized]
          · intro _
            exact ⟨s[l + m], by simp [List.getElem?_eq_getElem hlt2], ha⟩
        · have ha2 : isAlphanumeric (s[l + m]).val = false := by simpa using ha
          simp only [ha2, Bool.not_false, if_true]
          obtain ⟨k, hk, hrun, hnorm, hstop⟩ :=
            ih f l left (right - 1) hl (by omega) (by omega) (by omega) (by omega)
          refine ⟨k + 1, by omega, ?_, ?_, ?_⟩
          · rw [hrun]
            congr 1
            push_cast
            ring
          · have e1 : l + (m + 1) - (k + 1) = l + m - k := by omega
            have e2 : s[(l + m - k) + k]? = some s[l + m] := by
              have : l + m - k + k = l + m := by omega
              rw [this]
              exact List.getElem?_eq_getElem hlt2
            rw [e1, take_succ_drop_snoc s (l + m - k) k _ e2, byteNormalized_append, hnorm]
            simp [byteNormalized, ha2]
          · intro hk2
            obtain ⟨b, hb1, hb2⟩ := hstop (by omega)
            refine ⟨b, ?_, hb2⟩
            rw [← hb1]
            congr 1
            omega
      · rw [if_neg hlt]
        refine ⟨0, by omega, ?_, ?_, ?_⟩
        · congr 1
          omega
        · simp [byteNormalized]
        · intro h
          omega

theorem palindrome_wrap (a b : Nat) (m : List Nat) :
    (a :: (m ++ [b]) = (a :: (m ++ [b])).reverse) ↔ (a = b ∧ m = m.reverse) := by
  simp only [List.reverse_cons, List.reverse_append, List.reverse_nil, List.nil_append,
    List.singleton_append, List.cons_append, List.cons.injEq]
  constructor
  · rintro ⟨rfl, h⟩
    exact ⟨rfl, List.append_cancel_right h⟩
  · rintro ⟨rfl, h⟩
    exact ⟨rfl, by rw [← h]⟩

theorem palindrome_short (m : List Nat) (h : m.length ≤ 1) : m = m.reverse := by
  match m, h with
  | [], _ => rfl
  | [_], _ => rfl

theorem seg_add {α : Type} (s : List α) (l a b : Nat) :
    (s.drop l).take (a + b) = (s.drop l).take a ++ (s.drop (l + a)).take b := by
  rw [List.take_add, List.drop_drop]

theorem byteNormalized_length_le (a : List Byte) : (byteNormalized a).length ≤ a.length := by
  simp only [byteNormalized, List.length_map]
  exact List.length_filter_le _ _

/-- The outer loop on the segment of `n` bytes beginning at `l`, with the
cursors on its two ends: with `n + 1` units of fuel it returns, and it returns
whether the normal form of the segment reads the same in both directions. -/
theorem palindromeLoop_spec (s : List Byte) :
    ∀ (fuel n l : Nat) (left right : Int), left = l → right = (l : Int) + n - 1 →
      l + n ≤ s.length → n + 1 ≤ fuel →
      palindromeLoop s fuel left right =
        .ok (decide (byteNormalized ((s.drop l).take n) =
          (byteNormalized ((s.drop l).take n)).reverse)) := by
  intro fuel
  induction fuel with
  | zero => intro n l left right _ _ _ h; omega
  | succ f ih =>
    intro n l left right hl hr hlen hfuel
    simp only [palindromeLoop]
    by_cases hlt : left < right
    · rw [if_pos hlt]
      obtain ⟨k1, hk1, hrun1, hnorm1, hstop1⟩ :=
        skipLeft_spec s n (s.length + 1) l left right hl hr (by omega) hlen (by omega)
      generalize hL : (l : Int) + k1 = left1 at hrun1
      rw [hrun1]
      simp only
      obtain ⟨k2, hk2, hrun2, hnorm2, hstop2⟩ :=
        skipRight_spec s (n - k1) (s.length + 1) (l + k1) left1 right (by omega) (by omega)
          (by omega) (by omega) (by omega)
      generalize hR : ((l + k1 : Nat) : Int) + ((n - k1 : Nat) : Int) - 1 - k2 = right1 at hrun2
      rw [hrun2]
      simp only
      have hsplit : (s.drop l).take n = (s.drop l).take k1 ++
          ((s.drop (l + k1)).take (n - k1 - k2) ++ (s.drop (l + k1 + (n - k1) - k2)).take k2) := by
        have e1 : n = k1 + ((n - k1 - k2) + k2) := by omega
        have e2 : l + k1 + (n - k1) - k2 = l + k1 + (n - k1 - k2) := by omega
        rw [e2, ← seg_add, ← seg_add, ← e1]
      have hnorm : byteNormalized ((s.drop l).take n) =
          byteNormalized ((s.drop (l + k1)).take (n - k1 - k2)) := by
        rw [hsplit, byteNormalized_append, byteNormalized_append, hnorm1, hnorm2]
        simp
      rw [hnorm]
      by_cases hmeet : left1 ≥ right1
      · rw [if_pos hmeet]
        have hshort : (byteNormalized ((s.drop (l + k1)).take (n - k1 - k2))).length ≤ 1 := by
          refine le_trans (byteNormalized_length_le _) ?_
          rw [List.length_take]
          have : n - k1 - k2 ≤ 1 := by omega
          omega
        rw [decide_eq_true (palindrome_short _ hshort)]
      · rw [if_neg hmeet]
        obtain ⟨a, ha1, ha2⟩ := hstop1 (by omega)
        obtain ⟨b, hb1, hb2⟩ := hstop2 (by omega)
        have hba : byteAt s left1 = .ok a := by
          rw [← hL]
          have := byteAt_natCast s (l + k1) a ha1
          rw [← this]
          congr 1
        have hbb : byteAt s right1 = .ok b := by
          have hidx : right1 = ((l + k1 + (n - k1) - 1 - k2 : Nat) : Int) := by omega
          rw [hidx]
          exact byteAt_natCast s _ b hb1
        rw [hba, hbb]
        simp only
        have hseg : (s.drop (l + k1)).take (n - k1 - k2) =
            a :: ((s.drop (l + k1 + 1)).take (n - k1 - k2 - 2) ++ [b]) := by
          have e1 : n - k1 - k2 = (n - k1 - k2 - 2 + 1) + 1 := by omega
          have e2 : s[(l + k1 + 1) + (n - k1 - k2 - 2)]? = some b := by
            rw [← hb1]
            congr 1
            omega
          rw [e1, take_succ_drop s (l + k1) _ a ha1,
            take_succ_drop_snoc s (l + k1 + 1) _ b e2]
          simp
        have hn : byteNormalized ((s.drop (l + k1)).take (n - k1 - k2)) =
            toLowerRune a.val ::
              (byteNormalized ((s.drop (l + k1 + 1)).take (n - k1 - k2 - 2)) ++
                [toLowerRune b.val]) := by
          rw [hseg, byteNormalized_cons_keep _ _ ha2, byteNormalized_append]
          simp [byteNormalized, hb2]
        rw [hn]
        by_cases hne : toLowerRune a.val ≠ toLowerRune b.val
        · rw [if_pos hne]
          have : ¬ (toLowerRune a.val ::
              (byteNormalized ((s.drop (l + k1 + 1)).take (n - k1 - k2 - 2)) ++
                [toLowerRune b.val]) =
              (toLowerRune a.val ::
                (byteNormalized ((s.drop (l + k1 + 1)).take (n - k1 - k2 - 2)) ++
                  [toLowerRune b.val])).reverse) := by
            rw [palindrome_wrap]
            exact fun h => hne h.1
          rw [decide_eq_false this]
        · rw [if_neg hne]
          have heq : toLowerRune a.val = toLowerRune b.val := by
            by_contra h
            exact hne h
          rw [ih (n - k1 - k2 - 2) (l + k1 + 1) (left1 + 1) (right1 - 1) (by omega) (by omega)
            (by omega) (by omega)]
          congr 1
          rw [decide_eq_decide, palindrome_wrap]
          exact ⟨fun h => ⟨heq, h⟩, fun h => h.2⟩
    · rw [if_neg hlt]
      have hshort : (byteNormalized ((s.drop l).take n)).length ≤ 1 := by
        refine le_trans (byteNormalized_length_le _) ?_
        rw [List.length_take]
        have : n ≤ 1 := by omega
        omega
      rw [decide_eq_true (palindrome_short _ hshort)]

/-- On every byte string `IsPalindrome` returns, and it returns whether the
normal form of the string reads the same in both directions. -/
theorem isPalindrome_eq (s : List Byte) :
    IsPalindrome s = .ok (decide (byteNormalized s = (byteNormalized s).reverse)) := by
  unfold IsPalindrome
  by_cases h0 : s.length = 0
  · rw [if_pos h0]
    have : s = [] := List.length_eq_zero.mp h0
    subst this
    rfl
  · rw [if_neg h0]
    have := palindromeLoop_spec s (s.length + 1) s.length 0 0 ((s.length : Int) - 1) rfl
      (by omega) (by omega) (by omega)
    simpa using this

theorem isAlphanumeric_ascii (b : Byte) (hb : b.val < 128) :
    isAlphanumeric b.val = asciiAlnum b := by
  rw [Bool.eq_iff_iff]
  simp only [isAlphanumeric, unicodeIsLetter, unicodeIsDigit, asciiAlnum, Bool.or_eq_true,
    Bool.and_eq_true, decide_eq_true_eq, beq_iff_eq]
  omega

theorem toLowerRune_ascii (b : Byte) (hb : b.val < 128) :
    toLowerRune b.val = asciiLower b := by
  simp only [toLowerRune, unicodeToLower, asciiLower]
  split_ifs <;> omega

theorem byteNormalized_ascii (s : List Byte) (hs : ∀ b ∈ s, b.val < 128) :
    byteNormalized s = asciiNormalized s := by
  unfold byteNormalized asciiNormalized
  have hf : s.filter (fun b => isAlphanumeric b.val) = s.filter asciiAlnum :=
    List.filter_congr (fun b hb => isAlphanumeric_ascii b (hs b hb))
  rw [hf]
  exact List.map_congr_left (fun b hb =>
    toLowerRune_ascii b (hs b (List.mem_of_mem_filter hb)))

theorem asciiNormalized_reverse (s : List Byte) :
    asciiNormalized s.reverse = (asciiNormalized s).reverse := by
  simp [asciiNormalized, List.filter_reverse]

theorem ascii_sample_one : ∀ b ∈ ([65, 32, 98, 44, 97] : List Byte), b.val < 128 := by
  intro b hb
  simp only [List.mem_cons, List.mem_singleton, List.not_mem_nil, or_false] at hb
  rcases hb with rfl | rfl | rfl | rfl | rfl <;> decide

theorem ascii_sample_two :
    ∀ b ∈ ([114, 97, 99, 101, 32, 97] : List Byte), b.val < 128 := by
  intro b hb
  simp only [List.mem_cons, List.mem_singleton, List.not_mem_nil, or_false] at hb
  rcases hb with rfl | rfl | rfl | rfl | rfl | rfl <;> decide

/-! ## `IsPalindrome`: the claims -/

/-- C2: on a string of ASCII characters (the empty string included)
`IsPalindrome` returns, and it returns true exactly when the string, with every
character that is not an ASCII letter or digit deleted and every upper-case
letter mapped to its lower-case letter, is equal to its own reverse. -/
theorem isPalindrome_ascii_iff (s : List Byte) (hs : ∀ b ∈ s, b.val < 128) :
    (∃ r, IsPalindrome s = .ok r) ∧
      (IsPalindrome s = .ok true ↔ asciiNormalized s = (asciiNormalized s).reverse) := by
  rw [isPalindrome_eq, byteNormalized_ascii s hs]
  refine ⟨⟨_, rfl⟩, ?_⟩
  constructor
  · intro h
    have h2 := Except.ok.inj h
    exact of_decide_eq_true h2
  · intro h
    rw [decide_eq_true h]

theorem isPalindrome_ascii_iff_witness :
    (∀ b ∈ ([65, 32, 98, 44, 97] : List Byte), b.val < 128) ∧
      ((∃ r, IsPalindrome [65, 32, 98, 44, 97] = .ok r) ∧
        (IsPalindrome [65, 32, 98, 44, 97] = .ok true ↔
          asciiNormalized [65, 32, 98, 44, 97] = (asciiNormalized [65, 32, 98, 44, 97]).reverse)) :=
  ⟨ascii_sample_one, isPalindrome_ascii_iff _ ascii_sample_one⟩

/-- C5: on a string of ASCII characters `IsPalindrome` gives the same result
for the string and for the string with its characters in the opposite order. -/
theorem isPalindrome_reverse (s : List Byte) (hs : ∀ b ∈ s, b.val < 128) :
    IsPalindrome s = IsPalindrome s.reverse := by
  have hr : ∀ b ∈ s.reverse, b.val < 128 := fun b hb => hs b (List.mem_reverse.mp hb)
  rw [isPalindrome_eq, isPalindrome_eq, byteNormalized_ascii s hs,
    byteNormalized_ascii s.reverse hr, asciiNormalized_reverse]
  congr 1
  rw [decide_eq_decide, List.reverse_reverse]
  exact eq_comm

theorem isPalindrome_reverse_witness :
    (∀ b ∈ ([114, 97, 99, 101, 32, 97] : List Byte), b.val < 128) ∧
      IsPalindrome [114, 97, 99, 101, 32, 97] =
        IsPalindrome ([114, 97, 99, 101, 32, 97] : List Byte).reverse :=
  ⟨ascii_sample_two, isPalindrome_reverse _ ascii_sample_two⟩

/-! ## `BackspaceCompare` -/

theorem backspaceStep_hash (runes : List Char) :
    backspaceStep runes '#' = runes.dropLast := by
  simp only [backspaceStep, if_true]
  split_ifs with h
  · rw [List.dropLast_eq_take]
  · have : runes = [] := List.length_eq_zero.mp (by omega)
    subst this
    rfl

theorem backspaceStep_char (runes : List Char) (c : Char) (hc : c ≠ '#') :
    backspaceStep runes c = runes ++ [c] := by
  simp [backspaceStep, hc]

theorem backspaceRunes_append (s t : List Char) :
    backspaceRunes (s ++ t) = t.foldl backspaceStep (backspaceRunes s) := by
  simp [backspaceRunes, List.foldl_append]

theorem backspaceRunes_snoc (s : List Char) (c : Char) :
    backspaceRunes (s ++ [c]) = backspaceStep (backspaceRunes s) c := by
  simp [backspaceRunes_append]

/-- The first defining equation of `typed`. -/
theorem typed_nil : typed [] = [] := rfl

/-- The second defining equation of `typed`: a character other than `#` is
appended. -/
theorem typed_snoc_char (w : List Char) (c : Char) (hc : c ≠ '#') :
    typed (w ++ [c]) = typed w ++ [c] := by
  simp [typed, typedRev, hc]

/-- The third defining equation of `typed`: `#` removes the last character, and
leaves the empty text empty. -/
theorem typed_snoc_hash (w : List Char) :
    typed (w ++ ['#']) = (if typed w = [] then [] else (typed w).dropLast) := by
  simp only [typed, List.reverse_append, List.reverse_cons, List.reverse_nil, List.nil_append,
    List.singleton_append, typedRev, if_true]
  split_ifs with h
  · rw [h]
    rfl
  · rfl

theorem backspaceRunes_eq_typed (s : List Char) : backspaceRunes s = typed s := by
  induction s using List.reverseRecOn with
  | nil => rfl
  | append_singleton w c ih =>
    rw [backspaceRunes_snoc, ih]
    by_cases hc : c = '#'
    · subst hc
      rw [backspaceStep_hash, typed_snoc_hash]
      split_ifs with h
      · rw [h]
        rfl
      · rfl
    · rw [backspaceStep_char _ _ hc, typed_snoc_char _ _ hc]

theorem foldl_backspaceStep_of_no_hash (s : List Char) (hs : '#' ∉ s) :
    ∀ runes, s.foldl backspaceStep runes = runes ++ s := by
  induction s with
  | nil => intro runes; simp
  | cons c rest ih =>
    intro runes
    have hc : c ≠ '#' := fun h => hs (by simp [h])
    have hrest : '#' ∉ rest := fun h => hs (List.mem_cons_of_mem _ h)
    rw [List.foldl_cons, backspaceStep_char _ _ hc, ih hrest]
    simp

theorem backspaceRunes_replicate_hash (k : Nat) :
    backspaceRunes (List.replicate k '#') = [] := by
  induction k with
  | zero => rfl
  | succ k ih =>
    rw [List.replicate_succ', backspaceRunes_snoc, ih]
    rfl

/-- C3: `BackspaceCompare(s, t)` is true exactly when `typed(s) = typed(t)`,
`typed` being the text an initially empty editor holds after the characters are
typed in order, `#` deleting the last character held (if any). -/
theorem backspaceCompare_iff_typed (s t : List Char) :
    BackspaceCompare s t = true ↔ typed s = typed t := by
  simp [BackspaceCompare, backspaceRunes_eq_typed]

/-- C4: for every string `s` and every character `c` other than `#`,
`BackspaceCompare(s, s + c + "#")` is true. -/
theorem backspaceCompare_type_then_backspace (s : List Char) (c : Char) (hc : c ≠ '#') :
    BackspaceCompare s (s ++ [c, '#']) = true := by
  have h : backspaceRunes (s ++ [c, '#']) = backspaceRunes s := by
    rw [backspaceRunes_append]
    simp [backspaceStep_char _ _ hc, backspaceStep_hash]
  simp [BackspaceCompare, h]

theorem backspaceCompare_type_then_backspace_witness :
    'x' ≠ '#' ∧ BackspaceCompare ['a', '#', '#', 'b'] (['a', '#', '#', 'b'] ++ ['x', '#']) = true :=
  ⟨by decide, backspaceCompare_type_then_backspace _ 'x' (by decide)⟩

/-- C9: on two strings in which `#` does not occur, `BackspaceCompare` is true
exactly when the two strings are equal. -/
theorem backspaceCompare_no_hash_iff (s t : List Char) (hs : '#' ∉ s) (ht : '#' ∉ t) :
    BackspaceCompare s t = true ↔ s = t := by
  have h1 : backspaceRunes s = s := by
    simpa using foldl_backspaceStep_of_no_hash s hs []
  have h2 : backspaceRunes t = t := by
    simpa using foldl_backspaceStep_of_no_hash t ht []
  simp [BackspaceCompare, h1, h2]

theorem backspaceCompare_no_hash_iff_witness :
    '#' ∉ ['a', 'b', 'c'] ∧ '#' ∉ ['a', 'b', 'd'] ∧
      (BackspaceCompare ['a', 'b', 'c'] ['a', 'b', 'd'] = true ↔
        ['a', 'b', 'c'] = ['a', 'b', 'd']) :=
  ⟨by decide, by decide, backspaceCompare_no_hash_iff _ _ (by decide) (by decide)⟩

/-- C10: backspacing an empty text is a no-op: any number of `#` typed before
`s` leaves the comparison with `s` true; two strings made only of `#` compare
equal to each other, and each compares equal to the empty string. -/
theorem backspaceCompare_leading_backspaces (s : List Char) (k m : Nat) :
    BackspaceCompare (List.replicate k '#' ++ s) s = true ∧
      BackspaceCompare (List.replicate k '#') (List.replicate m '#') = true ∧
      BackspaceCompare (List.replicate k '#') [] = true := by
  have h : backspaceRunes (List.replicate k '#' ++ s) = backspaceRunes s := by
    rw [backspaceRunes_append, backspaceRunes_replicate_hash]
    rfl
  refine ⟨?_, ?_, ?_⟩
  · simp [BackspaceCompare, h]
  · simp [BackspaceCompare, backspaceRunes_replicate_hash]
  · rw [BackspaceCompare, backspaceRunes_replicate_hash]
    rfl

/-! ## Further claims on `BackspaceCompare` -/

/-- C16: `BackspaceCompare` is an equivalence relation on strings: it is true
of every string with itself, its value does not depend on the order of its two
arguments, and it is transitive. -/
theorem backspaceCompare_equivalence (s t u : List Char) :
    BackspaceCompare s s = true ∧
      BackspaceCompare s t = BackspaceCompare t s ∧
      (BackspaceCompare s t = true → BackspaceCompare t u = true →
        BackspaceCompare s u = true) := by
  refine ⟨?_, ?_, ?_⟩
  · simp [BackspaceCompare]
  · simp only [BackspaceCompare]
    rw [decide_eq_decide]
    exact eq_comm
  · intro h1 h2
    simp only [BackspaceCompare, decide_eq_true_eq] at h1 h2 ⊢
    rw [h1, h2]

theorem backspaceCompare_equivalence_witness :
    BackspaceCompare ['a', 'b', '#'] ['a', 'b', '#'] = true ∧
      BackspaceCompare ['a', 'b', '#'] ['#', 'a'] = BackspaceCompare ['#', 'a'] ['a', 'b', '#'] ∧
      BackspaceCompare ['a', 'b', '#'] ['a', 'c', '#'] = true :=
  ⟨(backspaceCompare_equivalence ['a', 'b', '#'] ['#', 'a'] ['a', 'c', '#']).1,
    (backspaceCompare_equivalence ['a', 'b', '#'] ['#', 'a'] ['a', 'c', '#']).2.1,
    (backspaceCompare_equivalence ['a', 'b', '#'] ['#', 'a'] ['a', 'c', '#']).2.2
      (by decide) (by decide)⟩

/-- On sequences of characters, a comparison that is true stays true when the
same characters are typed after both. -/
theorem backspaceCompare_append (s t u : List Char) (h : BackspaceCompare s t = true) :
    BackspaceCompare (s ++ u) (t ++ u) = true := by
  simp only [BackspaceCompare, decide_eq_true_eq] at h ⊢
  rw [backspaceRunes_append, backspaceRunes_append, h]

/-! ## Further claims on `IsValidParentheses` -/

theorem runStack_filter_isBracket (s : List Char) :
    ∀ st, runStack st (s.filter isBracket) = runStack st s := by
  induction s with
  | nil => intro st; rfl
  | cons c rest ih =>
    intro st
    by_cases hb : isBracket c = true
    · rw [List.filter_cons_of_pos hb]
      simp only [runStack]
      split_ifs
      · exact ih _
      · cases st with
        | nil => rfl
        | cons top below =>
          simp only
          split_ifs
          · exact ih _
          · rfl
      · exact ih _
    · rw [List.filter_cons_of_neg hb, ih]
      have ho : ¬ (c = '(' ∨ c = '[' ∨ c = '{') := by
        intro h
        apply hb
        rcases h with rfl | rfl | rfl <;> decide
      have hc : ¬ (c = ')' ∨ c = ']' ∨ c = '}') := by
        intro h
        apply hb
        rcases h with rfl | rfl | rfl <;> decide
      simp only [runStack, if_neg ho, if_neg hc]

theorem runStack_of_no_bracket (s : List Char) (hs : ∀ c ∈ s, isBracket c = false) :
    ∀ st, runStack st s = some st := by
  intro st
  rw [← runStack_filter_isBracket]
  have : s.filter isBracket = [] := by
    rw [List.filter_eq_nil_iff]
    intro c hc
    simp [hs c hc]
  rw [this]
  rfl

/-- C15: `IsValidParentheses` ignores every character that is not one of the
six brackets: its result on any string is its result on the string with all
non-bracket characters deleted; in particular a string without any bracket (a
string from which every bracket was removed) is accepted. -/
theorem isValidParentheses_ignores_non_brackets (s : List Char) :
    IsValidParentheses s = IsValidParentheses (s.filter isBracket) ∧
      IsValidParentheses (s.filter (fun c => !isBracket c)) = true := by
  constructor
  · rw [Bool.eq_iff_iff, isValid_iff_runStack, isValid_iff_runStack,
      runStack_filter_isBracket]
  · rw [isValid_iff_runStack]
    apply runStack_of_no_bracket
    intro c hc
    have := (List.mem_filter.mp hc).2
    simpa using this

theorem runStack_balance (p : List Char) :
    ∀ st0 st, runStack st0 p = some st →
      st.length + p.countP isCloseBracket = st0.length + p.countP isOpenBracket := by
  induction p with
  | nil =>
    intro st0 st h
    simp only [runStack, Option.some.injEq] at h
    simp [h]
  | cons c rest ih =>
    intro st0 st h
    simp only [runStack] at h
    by_cases ho : c = '(' ∨ c = '[' ∨ c = '{'
    · rw [if_pos ho] at h
      have := ih _ _ h
      have h1 : isOpenBracket c = true := by rcases ho with rfl | rfl | rfl <;> decide
      have h2 : isCloseBracket c = false := by rcases ho with rfl | rfl | rfl <;> decide
      simp only [List.countP_cons, h1, h2, List.length_cons] at this ⊢
      simp only [if_true, Bool.false_eq_true, if_false]
      omega
    · rw [if_neg ho] at h
      have h1 : isOpenBracket c = false := by
        simp only [isOpenBracket, Bool.or_eq_false_iff, beq_eq_false_iff_ne]
        tauto
      by_cases hcl : c = ')' ∨ c = ']' ∨ c = '}'
      · rw [if_pos hcl] at h
        have h2 : isCloseBracket c = true := by rcases hcl with rfl | rfl | rfl <;> decide
        cases st0 with
        | nil => simp at h
        | cons top below =>
          simp only at h
          by_cases ht : top = matchingOpen c
          · rw [if_pos ht] at h
            have := ih _ _ h
            simp only [List.countP_cons, h1, h2, List.length_cons] at this ⊢
            simp only [if_true, Bool.false_eq_true, if_false]
            omega
          · rw [if_neg ht] at h
            simp at h
      · rw [if_neg hcl] at h
        have h2 : isCloseBracket c = false := by
          simp only [isCloseBracket, Bool.or_eq_false_iff, beq_eq_false_iff_ne]
          tauto
        have := ih _ _ h
        simp only [List.countP_cons, h1, h2] at this ⊢
        simp only [Bool.false_eq_true, if_false]
        omega

/-- After a text that the stack machine reads without failing, the search for
unclosed brackets with `k` closing brackets pending finds the entry `k` of the
stack. -/
theorem lastUnclosedFrom_eq_stack (p : List Char) :
    ∀ st, runStack [] p = some st → ∀ k, lastUnclosedFrom k p.reverse = st[k]? := by
  induction p using List.reverseRecOn with
  | nil =>
    intro st h k
    simp only [runStack, Option.some.injEq] at h
    subst h
    simp [lastUnclosedFrom]
  | append_singleton q c ih =>
    intro st h k
    rw [runStack_append] at h
    cases hq : runStack [] q with
    | none => simp [hq] at h
    | some stq =>
      rw [hq] at h
      simp only [Option.some_bind, runStack] at h
      rw [List.reverse_append, List.reverse_singleton, List.singleton_append]
      simp only [lastUnclosedFrom]
      by_cases ho : c = '(' ∨ c = '[' ∨ c = '{'
      · rw [if_pos ho] at h
        simp only [Option.some.injEq] at h
        subst h
        have h1 : isOpenBracket c = true := by rcases ho with rfl | rfl | rfl <;> decide
        have h2 : isCloseBracket c = false := by rcases ho with rfl | rfl | rfl <;> decide
        simp only [h1, h2, Bool.false_eq_true, if_false, if_true]
        cases k with
        | zero => simp
        | succ j => simpa using ih stq hq j
      · rw [if_neg ho] at h
        have h1 : isOpenBracket c = false := by
          simp only [isOpenBracket, Bool.or_eq_false_iff, beq_eq_false_iff_ne]
          tauto
        by_cases hcl : c = ')' ∨ c = ']' ∨ c = '}'
        · rw [if_pos hcl] at h
          have h2 : isCloseBracket c = true := by rcases hcl with rfl | rfl | rfl <;> decide
          simp only [h2, if_true]
          cases stq with
          | nil => simp at h
          | cons top below =>
            simp only at h
            by_cases ht : top = matchingOpen c
            · rw [if_pos ht] at h
              simp only [Option.some.injEq] at h
              subst h
              simpa using ih _ hq (k + 1)
            · rw [if_neg ht] at h
              simp at h
        · rw [if_neg hcl] at h
          simp only [Option.some.injEq] at h
          subst h
          have h2 : isCloseBracket c = false := by
            simp only [isCloseBracket, Bool.or_eq_false_iff, beq_eq_false_iff_ne]
            tauto
          simp only [h1, h2, Bool.false_eq_true, if_false]
          exact ih _ hq k

/-- C14: once some prefix `p` of a string holds more closing than opening
brackets, or a closing bracket is read right after `p` while the most recently
opened unclosed bracket of `p` is of another kind, `IsValidParentheses` returns
false, whatever characters follow.  This holds on strings of brackets and on
every other string as well. -/
theorem isValidParentheses_fails_early (p rest : List Char)
    (h : p.countP isOpenBracket < p.countP isCloseBracket ∨
      ∃ c o after, rest = c :: after ∧ isCloseBracket c = true ∧
        lastUnclosed p = some o ∧ bracketKind o ≠ bracketKind c) :
    IsValidParentheses (p ++ rest) = false := by
  by_contra hcon
  rw [Bool.not_eq_false, isValid_iff_runStack] at hcon
  obtain ⟨st, h1, h2⟩ := runStack_split hcon
  rcases h with hcount | ⟨c, o, after, hrest, hc, hlast, hkind⟩
  · have := runStack_balance p [] st h1
    simp only [List.length_nil] at this
    omega
  · subst hrest
    have hcl : c = ')' ∨ c = ']' ∨ c = '}' := by
      simp only [isCloseBracket, Bool.or_eq_true, beq_iff_eq] at hc
      tauto
    have hno : ¬ (c = '(' ∨ c = '[' ∨ c = '{') := fun ho => open_close_absurd ho hcl
    simp only [runStack, if_neg hno, if_pos hcl] at h2
    cases st with
    | nil => simp at h2
    | cons top below =>
      simp only at h2
      by_cases ht : top = matchingOpen c
      · have hl := lastUnclosedFrom_eq_stack p _ h1 0
        rw [lastUnclosed, hl] at hlast
        simp only [List.getElem?_cons_zero, Option.some.injEq] at hlast
        apply hkind
        rw [← hlast, ht, bracketKind_matchingOpen hcl]
      · rw [if_neg ht] at h2
        simp at h2

theorem isValidParentheses_fails_early_witness :
    (['(', '['].countP isOpenBracket < ['(', '['].countP isCloseBracket ∨
        ∃ c o after, [')', ']'] = c :: after ∧ isCloseBracket c = true ∧
          lastUnclosed ['(', '['] = some o ∧ bracketKind o ≠ bracketKind c) ∧
      IsValidParentheses (['(', '['] ++ [')', ']']) = false :=
  ⟨Or.inr ⟨')', '[', [']'], rfl, by decide, by decide, by decide⟩,
    isValidParentheses_fails_early ['(', '['] [')', ']']
      (Or.inr ⟨')', '[', [']'], rfl, by decide, by decide, by decide⟩)⟩

/-! ## Further claims on `IsPalindrome` -/

theorem ascii_sample_three :
    ∀ b ∈ ([32, 32, 44, 46, 33, 63, 32, 32] : List Byte),
      b.val < 128 ∧ asciiAlnum b = false := by
  intro b hb
  simp only [List.mem_cons, List.mem_singleton, List.not_mem_nil, or_false] at hb
  rcases hb with rfl | rfl | rfl | rfl | rfl | rfl | rfl | rfl <;> decide

/-- C11: on a string of ASCII characters none of which is a letter or a digit,
of any length, `IsPalindrome` returns true. -/
theorem isPalindrome_no_alphanumeric (s : List Byte)
    (hs : ∀ b ∈ s, b.val < 128 ∧ asciiAlnum b = false) :
    IsPalindrome s = .ok true := by
  have hnorm : asciiNormalized s = [] := by
    simp only [asciiNormalized, List.map_eq_nil_iff, List.filter_eq_nil_iff]
    intro b hb
    simp [(hs b hb).2]
  rw [isPalindrome_eq, byteNormalized_ascii s (fun b hb => (hs b hb).1), hnorm]
  rfl

theorem isPalindrome_no_alphanumeric_witness :
    (∀ b ∈ ([32, 32, 44, 46, 33, 63, 32, 32] : List Byte),
        b.val < 128 ∧ asciiAlnum b = false) ∧
      IsPalindrome [32, 32, 44, 46, 33, 63, 32, 32] = .ok true :=
  ⟨ascii_sample_three, isPalindrome_no_alphanumeric _ ascii_sample_three⟩

/-- C12, as stated, fails: the one-character string `"ê"` is stored as the two
bytes `0xC3 0xAA`; whatever counts as a letter or digit and whatever
lower-casing does, a sequence drawn from one character is equal to its own
reverse, yet `IsPalindrome` returns false on these bytes. -/
theorem isPalindrome_unicode_counterexample :
    goBytes ['ê'] = [0xC3, 0xAA] ∧
      (∀ (keep : Char → Bool) (lower : Char → Char),
        (['ê'].filter keep).map lower = ((['ê'].filter keep).map lower).reverse) ∧
      IsPalindrome (goBytes ['ê']) = .ok false := by
  refine ⟨by decide, ?_, by decide⟩
  intro keep lower
  cases hk : keep 'ê' <;> simp [List.filter, hk]

/-- C12, amended: on every string of characters, stored as its UTF-8 bytes,
`IsPalindrome` returns, and it returns true exactly when the sequence of the
bytes of the string, each byte read as the code point of the same value, after
discarding every byte that is not a letter or digit and lower-casing every
letter, is equal to its own reverse. -/
theorem isPalindrome_bytes_iff (s : List Char) :
    (∃ r, IsPalindrome (goBytes s) = .ok r) ∧
      (IsPalindrome (goBytes s) = .ok true ↔
        byteNormalized (goBytes s) = (byteNormalized (goBytes s)).reverse) := by
  rw [isPalindrome_eq]
  refine ⟨⟨_, rfl⟩, ?_⟩
  constructor
  · intro h
    exact of_decide_eq_true (Except.ok.inj h)
  · intro h
    rw [decide_eq_true h]

/-! ## `IsPalindrome`: the events of a run -/

theorem skipLeftT_fst (s : List Byte) (right : Int) :
    ∀ (fuel : Nat) (left : Int), (skipLeftT s right fuel left).1 = skipLeft s right fuel left := by
  intro fuel
  induction fuel with
  | zero => intro left; rfl
  | succ f ih =>
    intro left
    simp only [skipLeftT, skipLeft]
    split_ifs with h1
    · cases hb : byteAt s left with
      | error e => rfl
      | ok b =>
        simp only
        split_ifs
        · exact ih _
        · rfl
    · rfl

theorem skipRightT_fst (s : List Byte) (left : Int) :
    ∀ (fuel : Nat) (right : Int),
      (skipRightT s left fuel right).1 = skipRight s left fuel right := by
  intro fuel
  induction fuel with
  | zero => intro right; rfl
  | succ f ih =>
    intro right
    simp only [skipRightT, skipRight]
    split_ifs with h1
    · cases hb : byteAt s right with
      | error e => rfl
      | ok b =>
        simp only
        split_ifs
        · exact ih _
        · rfl
    · rfl

theorem skipLeftT_events (s : List Byte) (right : Int) :
    ∀ (fuel : Nat) (left : Int), ∀ e ∈ (skipLeftT s right fuel left).2,
      ∃ i, e = Event.read i i right ∧ left ≤ i ∧ i < right := by
  intro fuel
  induction fuel with
  | zero => intro left e he; simp [skipLeftT] at he
  | succ f ih =>
    intro left e he
    simp only [skipLeftT] at he
    split_ifs at he with h1
    · cases hb : byteAt s left with
      | error err =>
        rw [hb] at he
        simp only [List.mem_singleton] at he
        exact ⟨left, he, le_refl _, h1⟩
      | ok b =>
        rw [hb] at he
        simp only at he
        split_ifs at he
        · rcases List.mem_cons.mp he with he | he
          · exact ⟨left, he, le_refl _, h1⟩
          · obtain ⟨i, hi1, hi2, hi3⟩ := ih _ e he
            exact ⟨i, hi1, by omega, hi3⟩
        · simp only [List.mem_singleton] at he
          exact ⟨left, he, le_refl _, h1⟩
    · simp at he

theorem skipRightT_events (s : List Byte) (left : Int) :
    ∀ (fuel : Nat) (right : Int), ∀ e ∈ (skipRightT s left fuel right).2,
      ∃ i, e = Event.read i left i ∧ left < i ∧ i ≤ right := by
  intro fuel
  induction fuel with
  | zero => intro right e he; simp [skipRightT] at he
  | succ f ih =>
    intro right e he
    simp only [skipRightT] at he
    split_ifs at he with h1
    · cases hb : byteAt s right with
      | error err =>
        rw [hb] at he
        simp only [List.mem_singleton] at he
        exact ⟨right, he, h1, le_refl _⟩
      | ok b =>
        rw [hb] at he
        simp only at he
        split_ifs at he
        · rcases List.mem_cons.mp he with he | he
          · exact ⟨right, he, h1, le_refl _⟩
          · obtain ⟨i, hi1, hi2, hi3⟩ := ih _ e he
            exact ⟨i, hi1, hi2, by omega⟩
        · simp only [List.mem_singleton] at he
          exact ⟨right, he, h1, le_refl _⟩
    · simp at he

theorem loopMeasures_reads (R : List Event)
    (hR : ∀ e ∈ R, ∃ i a b, e = Event.read i a b) : loopMeasures R = [] := by
  simp only [loopMeasures, List.filterMap_eq_nil_iff]
  intro e he
  obtain ⟨i, a, b, rfl⟩ := hR e he
  rfl

/-- One turn of the outer loop, seen from its events: a loop head, then reads
within the segment, then the events of the turns that follow, whose measures are
all smaller. -/
theorem events_step (lo hi bound left right : Int) (R rest : List Event)
    (hR : ∀ e ∈ R, ∃ i a b, e = Event.read i a b ∧ lo ≤ a ∧ a < b ∧ b ≤ hi ∧ (i = a ∨ i = b))
    (h1 : ∀ i a b, Event.read i a b ∈ rest → lo ≤ a ∧ a < b ∧ b ≤ hi ∧ (i = a ∨ i = b))
    (h2 : ∀ m ∈ loopMeasures rest, m < right - left)
    (h3 : (loopMeasures rest).Pairwise (· > ·))
    (hm : right - left ≤ bound) :
    (∀ i a b, Event.read i a b ∈ Event.loopHead left right :: (R ++ rest) →
        lo ≤ a ∧ a < b ∧ b ≤ hi ∧ (i = a ∨ i = b)) ∧
      (∀ m ∈ loopMeasures (Event.loopHead left right :: (R ++ rest)), m ≤ bound) ∧
      (loopMeasures (Event.loopHead left right :: (R ++ rest))).Pairwise (· > ·) := by
  have hRm : loopMeasures R = [] :=
    loopMeasures_reads R (fun e he => by
      obtain ⟨i, a, b, h, _⟩ := hR e he
      exact ⟨i, a, b, h⟩)
  have hms : loopMeasures (Event.loopHead left right :: (R ++ rest)) =
      (right - left) :: loopMeasures rest := by
    have happ : loopMeasures (R ++ rest) = loopMeasures R ++ loopMeasures rest := by
      simp [loopMeasures, List.filterMap_append]
    have hcons : loopMeasures (Event.loopHead left right :: (R ++ rest)) =
        (right - left) :: loopMeasures (R ++ rest) := by
      simp [loopMeasures, List.filterMap_cons]
    rw [hcons, happ, hRm, List.nil_append]
  refine ⟨?_, ?_, ?_⟩
  · intro i a b hmem
    rcases List.mem_cons.mp hmem with h | h
    · cases h
    · rcases List.mem_append.mp h with h | h
      · obtain ⟨i1, a1, b1, he, hb⟩ := hR _ h
        cases he
        exact hb
      · exact h1 i a b h
  · intro m hmem
    rw [hms] at hmem
    rcases List.mem_cons.mp hmem with h | h
    · omega
    · have := h2 m h
      omega
  · rw [hms, List.pairwise_cons]
    exact ⟨fun m hmem => h2 m hmem, h3⟩

theorem palindromeLoopT_fst (s : List Byte) :
    ∀ (fuel : Nat) (left right : Int),
      (palindromeLoopT s fuel left right).1 = palindromeLoop s fuel left right := by
  intro fuel
  induction fuel with
  | zero => intro left right; rfl
  | succ f ih =>
    intro left right
    simp only [palindromeLoopT, palindromeLoop]
    by_cases h1 : left < right
    · simp only [if_pos h1]
      have e1 := skipLeftT_fst s right (s.length + 1) left
      rcases hT : skipLeftT s right (s.length + 1) left with ⟨res, evL⟩
      rw [hT] at e1
      simp only at e1
      rw [← e1]
      cases res with
      | error e => rfl
      | ok left1 =>
        simp only
        have e2 := skipRightT_fst s left1 (s.length + 1) right
        rcases hT2 : skipRightT s left1 (s.length + 1) right with ⟨res2, evR⟩
        rw [hT2] at e2
        simp only at e2
        rw [← e2]
        cases res2 with
        | error e => rfl
        | ok right1 =>
          simp only
          by_cases hmeet : left1 ≥ right1
          · simp only [if_pos hmeet]
          · simp only [if_neg hmeet]
            cases byteAt s left1 with
            | error e => cases byteAt s right1 <;> rfl
            | ok a =>
              cases byteAt s right1 with
              | error e => rfl
              | ok b =>
                simp only
                split_ifs
                · rfl
                · exact ih _ _
    · simp only [if_neg h1]

theorem isPalindromeT_fst (s : List Byte) : (IsPalindromeT s).1 = IsPalindrome s := by
  unfold IsPalindromeT IsPalindrome
  split_ifs
  · rfl
  · exact palindromeLoopT_fst s _ _ _

/-- The events of the outer loop run on the segment of `n` bytes beginning at
`l`: every read happens with both cursors inside the segment and the left one
strictly before the right one, and the measures `right - left` seen at the
successive loop heads are bounded by `n - 1` and strictly decrease. -/
theorem palindromeLoopT_events (s : List Byte) :
    ∀ (fuel n l : Nat) (left right : Int), left = l → right = (l : Int) + n - 1 →
      l + n ≤ s.length → n + 1 ≤ fuel →
      (∀ i a b, Event.read i a b ∈ (palindromeLoopT s fuel left right).2 →
          (l : Int) ≤ a ∧ a < b ∧ b ≤ (l : Int) + n - 1 ∧ (i = a ∨ i = b)) ∧
        (∀ m ∈ loopMeasures (palindromeLoopT s fuel left right).2, m ≤ (n : Int) - 1) ∧
        (loopMeasures (palindromeLoopT s fuel left right).2).Pairwise (· > ·) := by
  intro fuel
  induction fuel with
  | zero => intro n l left right _ _ _ h; omega
  | succ f ih =>
    intro n l left right hl hr hlen hfuel
    simp only [palindromeLoopT]
    by_cases hlt : left < right
    · simp only [if_pos hlt]
      obtain ⟨k1, hk1, hrun1, _, hstop1⟩ :=
        skipLeft_spec s n (s.length + 1) l left right hl hr (by omega) hlen (by omega)
      generalize hL : (l : Int) + k1 = left1 at hrun1
      have evLp := skipLeftT_events s right (s.length + 1) left
      have e1 := skipLeftT_fst s right (s.length + 1) left
      rcases hT : skipLeftT s right (s.length + 1) left with ⟨res, evL⟩
      rw [hT] at e1 evLp
      simp only at e1 evLp
      rw [hrun1] at e1
      subst e1
      simp only
      obtain ⟨k2, hk2, hrun2, _, hstop2⟩ :=
        skipRight_spec s (n - k1) (s.length + 1) (l + k1) left1 right (by omega) (by omega)
          (by omega) (by omega) (by omega)
      generalize hR : ((l + k1 : Nat) : Int) + ((n - k1 : Nat) : Int) - 1 - k2 = right1 at hrun2
      have evRp := skipRightT_events s left1 (s.length + 1) right
      have e2 := skipRightT_fst s left1 (s.length + 1) right
      rcases hT2 : skipRightT s left1 (s.length + 1) right with ⟨res2, evR⟩
      rw [hT2] at e2 evRp
      simp only at e2 evRp
      rw [hrun2] at e2
      subst e2
      simp only
      have hRR : ∀ e ∈ evL ++ evR, ∃ i a b, e = Event.read i a b ∧
          (l : Int) ≤ a ∧ a < b ∧ b ≤ (l : Int) + n - 1 ∧ (i = a ∨ i = b) := by
        intro e he
        rcases List.mem_append.mp he with he | he
        · obtain ⟨i, h1, h2, h3⟩ := evLp e he
          exact ⟨i, i, right, h1, by omega, h3, by omega, Or.inl rfl⟩
        · obtain ⟨i, h1, h2, h3⟩ := evRp e he
          exact ⟨i, left1, i, h1, by omega, h2, by omega, Or.inr rfl⟩
      by_cases hmeet : left1 ≥ right1
      · simp only [if_pos hmeet]
        have := events_step (l : Int) ((l : Int) + n - 1) ((n : Int) - 1) left right
          (evL ++ evR) [] hRR (by simp) (by simp [loopMeasures]) (by simp [loopMeasures])
          (by omega)
        simpa using this
      · simp only [if_neg hmeet]
        obtain ⟨a, ha1, _⟩ := hstop1 (by omega)
        obtain ⟨b, hb1, _⟩ := hstop2 (by omega)
        have hba : byteAt s left1 = .ok a := by
          rw [← hL]
          have := byteAt_natCast s (l + k1) a ha1
          rw [← this]
          congr 1
        have hbb : byteAt s right1 = .ok b := by
          have hidx : right1 = ((l + k1 + (n - k1) - 1 - k2 : Nat) : Int) := by omega
          rw [hidx]
          exact byteAt_natCast s _ b hb1
        rw [hba, hbb]
        simp only
        have hRR2 : ∀ e ∈ evL ++ evR ++
            [Event.read left1 left1 right1, Event.read right1 left1 right1],
            ∃ i a b, e = Event.read i a b ∧
              (l : Int) ≤ a ∧ a < b ∧ b ≤ (l : Int) + n - 1 ∧ (i = a ∨ i = b) := by
          intro e he
          rcases List.mem_append.mp he with he | he
          · exact hRR e he
          · simp only [List.mem_cons, List.mem_singleton, List.not_mem_nil, or_false] at he
            rcases he with he | he
            · exact ⟨left1, left1, right1, he, by omega, by omega, by omega, Or.inl rfl⟩
            · exact ⟨right1, left1, right1, he, by omega, by omega, by omega, Or.inr rfl⟩
        by_cases hne : toLowerRune a.val ≠ toLowerRune b.val
        · simp only [if_pos hne]
          have := events_step (l : Int) ((l : Int) + n - 1) ((n : Int) - 1) left right
            (evL ++ evR ++ [Event.read left1 left1 right1, Event.read right1 left1 right1]) []
            hRR2 (by simp) (by simp [loopMeasures]) (by simp [loopMeasures]) (by omega)
          simpa using this
        · simp only [if_neg hne]
          obtain ⟨ih1, ih2, ih3⟩ := ih (n - k1 - k2 - 2) (l + k1 + 1) (left1 + 1) (right1 - 1)
            (by omega) (by omega) (by omega) (by omega)
          refine events_step (l : Int) ((l : Int) + n - 1) ((n : Int) - 1) left right
            (evL ++ evR ++ [Event.read left1 left1 right1, Event.read right1 left1 right1])
            (palindromeLoopT s f (left1 + 1) (right1 - 1)).2 hRR2 ?_ ?_ ih3 (by omega)
          · intro i x y hmem
            have := ih1 i x y hmem
            omega
          · intro m hm
            have := ih2 m hm
            omega
    · simp only [if_neg hlt]
      have := events_step (l : Int) ((l : Int) + n - 1) ((n : Int) - 1) left right
        [] [] (by simp) (by simp) (by simp [loopMeasures]) (by simp [loopMeasures]) (by omega)
      simpa using this

/-! ## `IsPalindrome`: safety -/

/-- C13: on every string `IsPalindrome` returns a boolean: its loops end and no
index is out of range.  In its run, every read of `s[left]` or `s[right]`
happens with `0 <= left <= right <= len(s) - 1`; the value of `right - left`
seen at an evaluation of the outer loop condition is strictly greater than the
one seen at the next evaluation, that is, it has strictly decreased over the
iteration in between; and on the empty string nothing is read. -/
theorem isPalindrome_safe (s : List Byte) :
    (∃ r, IsPalindrome s = .ok r) ∧
      (IsPalindromeT s).1 = IsPalindrome s ∧
      (∀ i left right, Event.read i left right ∈ (IsPalindromeT s).2 →
        0 ≤ left ∧ left ≤ right ∧ right ≤ (s.length : Int) - 1 ∧
          (i = left ∨ i = right)) ∧
      (loopMeasures (IsPalindromeT s).2).Chain' (· > ·) ∧
      (IsPalindromeT []).2 = [] := by
  refine ⟨⟨_, isPalindrome_eq s⟩, isPalindromeT_fst s, ?_, ?_, rfl⟩
  · intro i left right hmem
    unfold IsPalindromeT at hmem
    by_cases h0 : s.length = 0
    · rw [if_pos h0] at hmem
      simp at hmem
    · rw [if_neg h0] at hmem
      obtain ⟨h1, _, _⟩ := palindromeLoopT_events s (s.length + 1) s.length 0 0
        ((s.length : Int) - 1) rfl (by omega) (by omega) (by omega)
      have := h1 i left right hmem
      omega
  · unfold IsPalindromeT
    by_cases h0 : s.length = 0
    · rw [if_pos h0]
      simp [loopMeasures]
    · rw [if_neg h0]
      obtain ⟨_, _, h3⟩ := palindromeLoopT_events s (s.length + 1) s.length 0 0
        ((s.length : Int) - 1) rfl (by omega) (by omega) (by omega)
      exact List.Pairwise.chain' h3

/-! ## `BackspaceCompare` on the bytes of Go strings -/

theorem byte_val_ofNat (n : Nat) (h : n < 256) : (Fin.ofNat n : Byte).val = n := by
  show n % 256 = n
  exact Nat.mod_eq_of_lt h

theorem char_toNat_valid (c : Char) :
    c.toNat < 0xD800 ∨ (0xDFFF < c.toNat ∧ c.toNat < 0x110000) := by
  have h := c.valid
  simp only [UInt32.isValidChar, Nat.isValidChar] at h
  exact h

theorem decodeRune_one (b0 : Byte) (rest : List Byte) (n : Nat) (h0 : b0.val = n)
    (hn : n < 0x80) : decodeRune b0 rest = (Char.ofNat n, 1) := by
  have c1 : b0.val < 0x80 := by omega
  unfold decodeRune
  rw [if_pos c1, h0]

theorem decodeRune_two (b0 b1 : Byte) (rest : List Byte) (n : Nat)
    (h0 : b0.val = 0xC0 + n / 0x40) (h1 : b1.val = 0x80 + n % 0x40)
    (hlo : 0x80 ≤ n) (hhi : n < 0x800) :
    decodeRune b0 (b1 :: rest) = (Char.ofNat n, 2) := by
  have c1 : ¬ (b0.val < 0x80) := by omega
  have c2 : 0xC0 ≤ b0.val ∧ b0.val < 0xE0 := by omega
  have c3 : isContinuation b1 = true := by
    simp only [isContinuation, Bool.and_eq_true, decide_eq_true_eq]
    omega
  have hr : b0.val % 0x20 * 0x40 + b1.val % 0x40 = n := by omega
  have c4 : 0x7F < n := by omega
  simp only [decodeRune, if_neg c1, if_pos c2, c3, hr, if_pos c4, if_true]

theorem decodeRune_three (b0 b1 b2 : Byte) (rest : List Byte) (n : Nat)
    (h0 : b0.val = 0xE0 + n / 0x1000) (h1 : b1.val = 0x80 + n / 0x40 % 0x40)
    (h2 : b2.val = 0x80 + n % 0x40)
    (hlo : 0x800 ≤ n) (hhi : n < 0x10000) (hs : ¬ (0xD800 ≤ n ∧ n ≤ 0xDFFF)) :
    decodeRune b0 (b1 :: b2 :: rest) = (Char.ofNat n, 3) := by
  have c1 : ¬ (b0.val < 0x80) := by omega
  have c2 : ¬ (0xC0 ≤ b0.val ∧ b0.val < 0xE0) := by omega
  have c3 : 0xE0 ≤ b0.val ∧ b0.val < 0xF0 := by omega
  have k1 : isContinuation b1 = true := by
    simp only [isContinuation, Bool.and_eq_true, decide_eq_true_eq]
    omega
  have k2 : isContinuation b2 = true := by
    simp only [isContinuation, Bool.and_eq_true, decide_eq_true_eq]
    omega
  have hr : b0.val % 0x10 * 0x1000 + b1.val % 0x40 * 0x40 + b2.val % 0x40 = n := by omega
  have c4 : 0x7FF < n ∧ ¬ (0xD800 ≤ n ∧ n ≤ 0xDFFF) := ⟨by omega, hs⟩
  simp only [decodeRune, if_neg c1, if_neg c2, if_pos c3, k1, k2, hr, if_pos c4, if_true,
    Bool.and_self]

theorem decodeRune_four (b0 b1 b2 b3 : Byte) (rest : List Byte) (n : Nat)
    (h0 : b0.val = 0xF0 + n / 0x40000) (h1 : b1.val = 0x80 + n / 0x1000 % 0x40)
    (h2 : b2.val = 0x80 + n / 0x40 % 0x40) (h3 : b3.val = 0x80 + n % 0x40)
    (hlo : 0x10000 ≤ n) (hhi : n < 0x110000) :
    decodeRune b0 (b1 :: b2 :: b3 :: rest) = (Char.ofNat n, 4) := by
  have c1 : ¬ (b0.val < 0x80) := by omega
  have c2 : ¬ (0xC0 ≤ b0.val ∧ b0.val < 0xE0) := by omega
  have c3 : ¬ (0xE0 ≤ b0.val ∧ b0.val < 0xF0) := by omega
  have c5 : 0xF0 ≤ b0.val ∧ b0.val < 0xF8 := by omega
  have k1 : isContinuation b1 = true := by
    simp only [isContinuation, Bool.and_eq_true, decide_eq_true_eq]
    omega
  have k2 : isContinuation b2 = true := by
    simp only [isContinuation, Bool.and_eq_true, decide_eq_true_eq]
    omega
  have k3 : isContinuation b3 = true := by
    simp only [isContinuation, Bool.and_eq_true, decide_eq_true_eq]
    omega
  have hr : b0.val % 0x8 * 0x40000 + b1.val % 0x40 * 0x1000 + b2.val % 0x40 * 0x40
      + b3.val % 0x40 = n := by omega
  have c4 : 0xFFFF < n ∧ n ≤ 0x10FFFF := by omega
  simp only [decodeRune, if_neg c1, if_neg c2, if_neg c3, if_pos c5, k1, k2, k3, hr, if_pos c4,
    if_true, Bool.and_self]

/-- Reading the UTF-8 encoding of a character with `range` yields that
character and leaves the bytes after it. -/
theorem decodeRunesFrom_utf8Encode (c : Char) (rest : List Byte) :
    decodeRunesFrom 0 (utf8Encode c ++ rest) = c :: decodeRunesFrom 0 rest := by
  have hv := char_toNat_valid c
  have hc : Char.ofNat c.toNat = c := Char.ofNat_toNat c
  unfold utf8Encode
  simp only
  by_cases h1 : c.toNat < 0x80
  · rw [if_pos h1]
    have e0 := byte_val_ofNat c.toNat (by omega)
    rw [List.singleton_append, decodeRunesFrom, decodeRune_one _ rest c.toNat e0 h1, hc]
    rfl
  · rw [if_neg h1]
    by_cases h2 : c.toNat < 0x800
    · rw [if_pos h2]
      have e0 := byte_val_ofNat (0xC0 + c.toNat / 0x40) (by omega)
      have e1 := byte_val_ofNat (0x80 + c.toNat % 0x40) (by omega)
      rw [List.cons_append, List.singleton_append, decodeRunesFrom,
        decodeRune_two _ _ rest c.toNat e0 e1 (by omega) h2, hc]
      rfl
    · rw [if_neg h2]
      by_cases h3 : c.toNat < 0x10000
      · rw [if_pos h3]
        have e0 := byte_val_ofNat (0xE0 + c.toNat / 0x1000) (by omega)
        have e1 := byte_val_ofNat (0x80 + c.toNat / 0x40 % 0x40) (by omega)
        have e2 := byte_val_ofNat (0x80 + c.toNat % 0x40) (by omega)
        rw [List.cons_append, List.cons_append, List.singleton_append, decodeRunesFrom,
          decodeRune_three _ _ _ rest c.toNat e0 e1 e2 (by omega) h3 (by omega), hc]
        rfl
      · rw [if_neg h3]
        have e0 := byte_val_ofNat (0xF0 + c.toNat / 0x40000) (by omega)
        have e1 := byte_val_ofNat (0x80 + c.toNat / 0x1000 % 0x40) (by omega)
        have e2 := byte_val_ofNat (0x80 + c.toNat / 0x40 % 0x40) (by omega)
        have e3 := byte_val_ofNat (0x80 + c.toNat % 0x40) (by omega)
        rw [List.cons_append, List.cons_append, List.cons_append, List.singleton_append,
          decodeRunesFrom,
          decodeRune_four _ _ _ _ rest c.toNat e0 e1 e2 e3 (by omega) (by omega), hc]
        rfl

theorem decodeRunes_goBytes_append (s : List Char) (u : List Byte) :
    decodeRunes (goBytes s ++ u) = s ++ decodeRunes u := by
  induction s with
  | nil => rfl
  | cons c rest ih =>
    have : goBytes (c :: rest) ++ u = utf8Encode c ++ (goBytes rest ++ u) := by
      simp [goBytes, List.flatMap_cons]
    rw [this]
    unfold decodeRunes at ih ⊢
    rw [decodeRunesFrom_utf8Encode, ih]
    rfl

/-- A string that is a sequence of characters is read back by `range` as that
sequence. -/
theorem decodeRunes_goBytes (s : List Char) : decodeRunes (goBytes s) = s := by
  have h := decodeRunes_goBytes_append s []
  rw [List.append_nil] at h
  rw [h]
  simp [decodeRunes, decodeRunesFrom]

theorem goBytes_injective {a b : List Char} (h : goBytes a = goBytes b) : a = b := by
  rw [← decodeRunes_goBytes a, ← decodeRunes_goBytes b, h]

/-- On the bytes of Go strings `BackspaceCompare` is the comparison of the rune
slices built from the runes `range` yields. -/
theorem backspaceCompareBytes_eq (s t : List Byte) :
    BackspaceCompareBytes s t = BackspaceCompare (decodeRunes s) (decodeRunes t) := by
  unfold BackspaceCompareBytes BackspaceCompare
  rw [decide_eq_decide]
  exact ⟨goBytes_injective, fun h => by rw [h]⟩

/-- C17, as stated, fails: the strings `"\xc3"` and `"\xff"` each hold one byte
that is not valid UTF-8, `range` yields `U+FFFD` for either, and
`BackspaceCompare` is true of them; with the byte `0xa9` joined to both, the
first reads as the character `é` and the second as two `U+FFFD`, and
`BackspaceCompare` is false. -/
theorem backspaceCompare_append_counterexample :
    BackspaceCompareBytes [0xC3] [0xFF] = true ∧
      decodeRunes ([0xC3] ++ [0xA9]) = ['é'] ∧
      decodeRunes ([0xFF] ++ [0xA9]) = [runeError, runeError] ∧
      BackspaceCompareBytes ([0xC3] ++ [0xA9]) ([0xFF] ++ [0xA9]) = false := by
  decide

/-- C17, amended: `BackspaceCompare` is preserved by typing the same suffix
after two strings that are sequences of characters (valid UTF-8 text): for such
`s` and `t` and every string `u`, with or without `#`, valid UTF-8 or not, when
`BackspaceCompare(s, t)` is true, so is `BackspaceCompare(s + u, t + u)`. -/
theorem backspaceCompareBytes_append (s t : List Char) (u : List Byte)
    (h : BackspaceCompareBytes (goBytes s) (goBytes t) = true) :
    BackspaceCompareBytes (goBytes s ++ u) (goBytes t ++ u) = true := by
  rw [backspaceCompareBytes_eq, decodeRunes_goBytes, decodeRunes_goBytes] at h
  rw [backspaceCompareBytes_eq, decodeRunes_goBytes_append, decodeRunes_goBytes_append]
  exact backspaceCompare_append s t (decodeRunes u) h

theorem backspaceCompareBytes_append_witness :
    BackspaceCompareBytes (goBytes ['a', 'é', '#']) (goBytes ['#', 'a']) = true ∧
      BackspaceCompareBytes (goBytes ['a', 'é', '#'] ++ [0x23, 0xC3, 0x78])
        (goBytes ['#', 'a'] ++ [0x23, 0xC3, 0x78]) = true :=
  ⟨by decide, backspaceCompareBytes_append _ _ _ (by decide)⟩

end GoInterview
